import Mathlib

/-!
# primes.cpp: trial division, Miller-Rabin and the partitioned benchmark

A shallow embedding of `src/primes.cpp`.

* `long int` values are `Int`; the C++ operators `%` and `/` on them are `Int.tmod` and
  `Int.tdiv` (truncation toward zero).
* Arithmetic that can leave the 64-bit range (`x + y`, `y * 2` in `mulmod`, `temp * 2` in
  `isPrimeMillerRabin`) is wrapped with `wrap64` (two's complement); the increments of the
  `int` counters are wrapped with `wrap32`.
* `rand()` is a stream `g : Nat → Int` with a cursor; a call returns `g k` and moves the
  cursor to `k + 1`.
* The shared counters `countTD`, `countGMP` are passed explicitly; the timing code is left out.
* The library routine `mpz_probab_prime_p` is a parameter of `primesLibGmp`.
* `mulmodTrace` and `mulmodExact` expose the intermediate values of `mulmod`; the `Checked`
  functions are a second embedding in which a `%` by zero is a fault; `workerStep` and
  `schedule` run the worker threads in interleaved atomic steps.
-/

namespace Primes

/-! ## Machine integers -/

/-- Two's-complement reduction of an integer to the range of `long int`. -/
def wrap64 (x : Int) : Int := (x + 2 ^ 63) % 2 ^ 64 - 2 ^ 63

/-- Two's-complement reduction of an integer to the range of `int`. -/
def wrap32 (x : Int) : Int := (x + 2 ^ 31) % 2 ^ 32 - 2 ^ 31

/-- The value of a signed integer after conversion to `unsigned long` / `std::size_t`. -/
def toUnsignedLong (x : Int) : Int := x % 2 ^ 64

/-- `#define ACCURACY 15` -/
def ACCURACY : Nat := 15

/-! ## `isPrimeTrialDivision` -/

/-- The loop `for (long int i = 2; i <= sqrt(n); ++i) if (n % i == 0) return false;`
followed by `return true`, with `i <= sqrt(n)` read as `i ≤ ⌊√n⌋`.
The counter never leaves the 64-bit range (`i ≤ ⌊√n⌋ + 1`), so `++i` is not wrapped. -/
def isPrimeTrialDivisionLoop (n : Int) (i : Int) : Bool :=
  if i ≤ Int.sqrt n then
    if Int.tmod n i = 0 then false else isPrimeTrialDivisionLoop n (i + 1)
  else true
termination_by (Int.sqrt n + 1 - i).toNat
decreasing_by omega

/-- `bool isPrimeTrialDivision(long int n)` -/
def isPrimeTrialDivision (n : Int) : Bool :=
  if n ≤ 1 then false
  else if n = 2 then true
  else isPrimeTrialDivisionLoop n 2

/-! ## `mulmod` and `modulo` -/

/-- The loop of `mulmod`:
`while (b > 0) { if (b % 2 == 1) { x = (x + y) % mod; } y = (y * 2) % mod; b /= 2; }`.
Returns the final `x`. -/
def mulmodLoop (mod : Int) (x y b : Int) : Int :=
  if b > 0 then
    mulmodLoop mod
      (if Int.tmod b 2 = 1 then Int.tmod (wrap64 (x + y)) mod else x)
      (Int.tmod (wrap64 (y * 2)) mod)
      (Int.tdiv b 2)
  else x
termination_by b.toNat
decreasing_by
  have h2 : Int.tdiv b 2 = b / 2 := Int.tdiv_eq_ediv (by omega) (by omega)
  omega

/-- `long int mulmod(long int a, long int b, long int mod)` -/
def mulmod (a b mod : Int) : Int :=
  Int.tmod (mulmodLoop mod 0 (Int.tmod a mod) b) mod

/-- The loop of `modulo`:
`while (exp > 0) { if (exp % 2 == 1) { x = mulmod(x, y, mod); } y = mulmod(y, y, mod); exp /= 2; }`.
Returns the final `x`. -/
def moduloLoop (mod : Int) (x y exp : Int) : Int :=
  if exp > 0 then
    moduloLoop mod
      (if Int.tmod exp 2 = 1 then mulmod x y mod else x)
      (mulmod y y mod)
      (Int.tdiv exp 2)
  else x
termination_by exp.toNat
decreasing_by
  have h2 : Int.tdiv exp 2 = exp / 2 := Int.tdiv_eq_ediv (by omega) (by omega)
  omega

/-- `long int modulo(long int b, long int exp, long int mod)` -/
def modulo (b exp mod : Int) : Int :=
  Int.tmod (moduloLoop mod 1 b exp) mod

/-! ## `isPrimeMillerRabin`

The two `while` loops of `isPrimeMillerRabin` have no syntactic bound, so they are run with
fuel; `none` means the fuel ran out. `loopFuel` is the width of `long int`. -/

/-- Fuel handed to the `while` loops of `isPrimeMillerRabin`. -/
def loopFuel : Nat := 64

/-- The loop `while (s % 2 == 0) { s /= 2; }`. Returns the final `s`. -/
def halveLoop : Nat → Int → Option Int
  | 0, _ => none
  | fuel + 1, s => if Int.tmod s 2 = 0 then halveLoop fuel (Int.tdiv s 2) else some s

/-- The loop
`while (temp != (p - 1) && mod != 1 && mod != (p - 1)) { mod = mulmod(mod, mod, p); temp *= 2; }`.
Returns the final `mod`. -/
def squareLoop (p : Int) : Nat → Int → Int → Option Int
  | 0, _, _ => none
  | fuel + 1, temp, mod =>
    if temp ≠ p - 1 ∧ mod ≠ 1 ∧ mod ≠ p - 1 then
      squareLoop p fuel (wrap64 (temp * 2)) (mulmod mod mod p)
    else some mod

/-- One pass through the body of the `for` loop for the witness `a`, after `a` is drawn:
`some true` when the round ends in `continue` or falls through to the next round,
`some false` when it ends in `return false`. -/
def millerRabinRound (p s a : Int) : Option Bool :=
  let mod := modulo a s p
  if mod = 1 ∨ mod = p - 1 then some true
  else
    match squareLoop p loopFuel s mod with
    | none => none
    | some m => some (decide (m = p - 1))

/-- The loop `for (int i = 0; i < ACCURACY; i++) { long int a = rand() % (p - 1) + 1; ... }`
with the final `return true`; the first argument counts the rounds left, `k` is the cursor
into the stream `g` of values of `rand()`. Returns the verdict and the new cursor. -/
def millerRabinRounds (g : Nat → Int) (p s : Int) : Nat → Nat → Option (Bool × Nat)
  | 0, k => some (true, k)
  | n + 1, k =>
    match millerRabinRound p s (Int.tmod (g k) (p - 1) + 1) with
    | none => none
    | some false => some (false, k + 1)
    | some true => millerRabinRounds g p s n (k + 1)

/-- `bool isPrimeMillerRabin(long int p)`, with the state of `rand()` made explicit:
`g` is the stream of values `rand()` returns and `k` the number of values drawn so far.
The result is the verdict together with the number of values drawn afterwards. -/
def isPrimeMillerRabin (g : Nat → Int) (k : Nat) (p : Int) : Option (Bool × Nat) :=
  if p < 2 then some (false, k)
  else if p ≠ 2 ∧ Int.tmod p 2 = 0 then some (false, k)
  else
    match halveLoop loopFuel (p - 1) with
    | none => none
    | some s => millerRabinRounds g p s ACCURACY k

/-! ## The passes over the list -/

/-- The ownership test `element % cores == threadId` of the three pass functions:
`element` is a `std::size_t`, so both `int` operands are converted to `unsigned long`. -/
def owns (element : Nat) (cores threadId : Int) : Bool :=
  decide (Int.tmod (element : Int) (toUnsignedLong cores) = toUnsignedLong threadId)

/-- The loop of `primesTrialDivision` from index `element` on, `todo` being the elements
`numbers[element ..]`; returns the final `countTD`. -/
def primesTrialDivisionLoop (threadId cores : Int) : List Int → Nat → Int → Int
  | [], _, countTD => countTD
  | x :: todo, element, countTD =>
    primesTrialDivisionLoop threadId cores todo (element + 1)
      (if owns element cores threadId then
        (if isPrimeTrialDivision x then wrap32 (countTD + 1) else countTD)
       else countTD)

/-- `primesTrialDivision(numbers, threadId, cores)` as a transformer of the global `countTD`
(the elapsed time it returns is not modelled). -/
def primesTrialDivision (numbers : List Int) (threadId cores : Int) (countTD : Int) : Int :=
  primesTrialDivisionLoop threadId cores numbers 0 countTD

/-- The worker threads of `main` run one after another: `primesTrialDivision(numbers, i, cores)`
for `i = 0, ..., cores - 1`, starting from `countTD`. -/
def runTrialDivision (numbers : List Int) (cores : Nat) (countTD : Int) : Int :=
  (List.range cores).foldl
    (fun (c : Int) (i : Nat) => primesTrialDivision numbers (i : Int) (cores : Int) c) countTD

/-- The value of the `mpz_t` after `mpz_set_ui(number, n)` for a `long int` argument `n`:
the parameter is an `unsigned long`, so `n` is converted first. -/
def mpzSetUi (n : Int) : Int := toUnsignedLong n

/-- The loop of `primesLibGmp`, with the library routine `mpz_probab_prime_p` as the
parameter `probab`; returns the final `countGMP`. -/
def primesLibGmpLoop (probab : Int → Nat → Int) (threadId cores : Int) :
    List Int → Nat → Int → Int
  | [], _, countGMP => countGMP
  | x :: todo, element, countGMP =>
    primesLibGmpLoop probab threadId cores todo (element + 1)
      (if owns element cores threadId then
        (if probab (mpzSetUi x) ACCURACY > 0 then wrap32 (countGMP + 1) else countGMP)
       else countGMP)

/-- `primesLibGmp(numbers, threadId, cores)` as a transformer of the global `countGMP`. -/
def primesLibGmp (probab : Int → Nat → Int) (numbers : List Int) (threadId cores : Int)
    (countGMP : Int) : Int :=
  primesLibGmpLoop probab threadId cores numbers 0 countGMP

/-- The indices below `L` that the pass functions visit for worker `threadId` of `cores`:
those that pass the ownership test. -/
def partition (L : Nat) (cores threadId : Int) : Finset Nat :=
  (Finset.range L).filter (fun i => owns i cores threadId = true)

/-! ## Counting functions used to state the aggregate results -/

/-- Number of elements of `todo` (the elements at the indices from `element` on) that worker
`w` of `cores` owns and that trial division accepts. -/
def ownedPrimes (cores w : Nat) : List Int → Nat → Nat
  | [], _ => 0
  | x :: todo, element =>
    (if element % cores = w ∧ isPrimeTrialDivision x = true then 1 else 0)
      + ownedPrimes cores w todo (element + 1)

/-- Number of elements of `todo` (the elements at the indices from `element` on) that trial
division accepts and whose index has a residue modulo `cores` below `w`. -/
def primesBelow (cores w : Nat) : List Int → Nat → Nat
  | [], _ => 0
  | x :: todo, element =>
    (if element % cores < w ∧ isPrimeTrialDivision x = true then 1 else 0)
      + primesBelow cores w todo (element + 1)

/-! ## The round test in closed form -/

/-- The verdict of one round of `isPrimeMillerRabin` in closed form, for `p - 1 = s * 2 ^ r`:
the witness passes when `a ^ s mod p` is `1`, or `a ^ (s * 2 ^ i) mod p` is `p - 1` for some
`i ≤ r` (the loop of the code squares until `temp` reaches `p - 1`, that is up to `r` times). -/
def roundPasses (p : Int) (s r : Nat) (a : Int) : Prop :=
  a ^ s % p = 1 ∨ ∃ i, i ≤ r ∧ a ^ (s * 2 ^ i) % p = p - 1

/-! ## Counting witnesses -/

/-- Whether the round of `isPrimeMillerRabin(p)` passes for the witness `a`, with `s` the value
the halving loop leaves. -/
def roundAccepts (p a : Int) : Bool :=
  match halveLoop loopFuel (p - 1) with
  | none => false
  | some s => millerRabinRound p s a == some true

/-- The witnesses in `[1, p - 1]` whose round passes. -/
def passingWitnesses (p : Int) : Finset Nat :=
  (Finset.Icc 1 (p.toNat - 1)).filter (fun a => roundAccepts p (a : Int) = true)

/-- The values of `rand()` under which `isPrimeMillerRabin(p)` draws the witnesses
`t 0 + 1, ..., t 14 + 1`, for a tuple `t` with entries below `n = p - 1`. -/
def witnessStream (n : Nat) (t : Fin ACCURACY → Fin n) : Nat → Int :=
  fun i => if h : i < ACCURACY then (((t ⟨i, h⟩ : Fin n) : Nat) : Int) else 0

/-- The tuples of fifteen witnesses from `[1, p - 1]` (each entry `v` standing for the witness
`v + 1`) on which `isPrimeMillerRabin(p)` returns true. -/
def acceptedTuples (p : Int) : Finset (Fin ACCURACY → Fin (p.toNat - 1)) :=
  Finset.univ.filter
    (fun t => isPrimeMillerRabin (witnessStream (p.toNat - 1) t) 0 p = some (true, ACCURACY))

/-! ## `mulmod` with its intermediate values, and in exact arithmetic -/

/-- The values that `mulmod` computes in its loop, as exact integers before any 64-bit
wrap-around, in the order of the run: at every test of the loop condition the current `x` and
`y`, and in the body the sum `x + y` (when `b` is odd) and the doubling `y * 2`. The state
evolves as in `mulmodLoop`. -/
def mulmodLoopTrace (mod : Int) (x y b : Int) : List Int :=
  if b > 0 then
    x :: y :: ((if Int.tmod b 2 = 1 then [x + y] else []) ++ (y * 2) ::
      mulmodLoopTrace mod
        (if Int.tmod b 2 = 1 then Int.tmod (wrap64 (x + y)) mod else x)
        (Int.tmod (wrap64 (y * 2)) mod)
        (Int.tdiv b 2))
  else [x, y]
termination_by b.toNat
decreasing_by
  have h2 : Int.tdiv b 2 = b / 2 := Int.tdiv_eq_ediv (by omega) (by omega)
  omega

/-- The intermediate values of `mulmod(a, b, mod)`. -/
def mulmodTrace (a b mod : Int) : List Int :=
  mulmodLoopTrace mod 0 (Int.tmod a mod) b

/-- The loop of `mulmod` in unbounded integers: `mulmodLoop` without the 64-bit wrap-around. -/
def mulmodLoopExact (mod : Int) (x y b : Int) : Int :=
  if b > 0 then
    mulmodLoopExact mod
      (if Int.tmod b 2 = 1 then Int.tmod (x + y) mod else x)
      (Int.tmod (y * 2) mod)
      (Int.tdiv b 2)
  else x
termination_by b.toNat
decreasing_by
  have h2 : Int.tdiv b 2 = b / 2 := Int.tdiv_eq_ediv (by omega) (by omega)
  omega

/-- The function `mulmod` in unbounded integers. -/
def mulmodExact (a b mod : Int) : Int :=
  Int.tmod (mulmodLoopExact mod 0 (Int.tmod a mod) b) mod

/-! ## The reference round test -/

/-- The squarings of the reference round test, in the words of the specification: square `x`
modulo `p` up to `n` times, checking after each squaring whether `x` is `p - 1` (pass); if none
of the squarings reaches `p - 1` the round fails. -/
def referenceSquarings (p : Int) : Nat → Int → Bool
  | 0, _ => false
  | n + 1, x => if x * x % p = p - 1 then true else referenceSquarings p n (x * x % p)

/-- The reference strong-probable-prime round, which tracks `r` explicitly, in the words of
the specification: with `x = a ^ s mod p`, the round passes if `x` is `1` or `p - 1`;
otherwise `x` is squared up to `r - 1` times. -/
def referenceRound (p : Int) (s r : Nat) (a : Int) : Bool :=
  if a ^ s % p = 1 ∨ a ^ s % p = p - 1 then true
  else referenceSquarings p (r - 1) (a ^ s % p)

/-! ## Division by zero made explicit

A second embedding of `mulmod`, `modulo` and `isPrimeMillerRabin` in which every `%` by a
variable divisor is checked: a zero divisor ends the run with `Run.divisionByZero`. The
divisions by the literal `2` cannot fail and are left as they are. -/

/-- The outcome of a checked run. -/
inductive Run (α : Type) where
  | done (value : α)
  | divisionByZero
  | outOfFuel

/-- Sequencing of checked runs: a fault ends the run. -/
def Run.bind {α β : Type} (r : Run α) (f : α → Run β) : Run β :=
  match r with
  | Run.done a => f a
  | Run.divisionByZero => Run.divisionByZero
  | Run.outOfFuel => Run.outOfFuel

/-- A run with fuel as a checked run: `none` is `Run.outOfFuel`. -/
def Run.ofOption {α : Type} : Option α → Run α
  | some a => Run.done a
  | none => Run.outOfFuel

/-- The C++ operation `a % b` on `long int`, a fault when `b` is `0`. -/
def checkedMod (a b : Int) : Run Int :=
  if b = 0 then Run.divisionByZero else Run.done (Int.tmod a b)

/-- The loop of `mulmod` with `(x + y) % mod` and `(y * 2) % mod` checked. -/
def mulmodLoopChecked (mod : Int) (x y b : Int) : Run Int :=
  if b > 0 then
    (if Int.tmod b 2 = 1 then checkedMod (wrap64 (x + y)) mod else Run.done x).bind fun x2 =>
      (checkedMod (wrap64 (y * 2)) mod).bind fun y2 =>
        mulmodLoopChecked mod x2 y2 (Int.tdiv b 2)
  else Run.done x
termination_by b.toNat
decreasing_by
  have h2 : Int.tdiv b 2 = b / 2 := Int.tdiv_eq_ediv (by omega) (by omega)
  omega

/-- The function `mulmod` with `a % mod`, the loop and `x % mod` checked. -/
def mulmodChecked (a b mod : Int) : Run Int :=
  (checkedMod a mod).bind fun y =>
    (mulmodLoopChecked mod 0 y b).bind fun x => checkedMod x mod

/-- The loop of `modulo` over the checked `mulmod`. -/
def moduloLoopChecked (mod : Int) (x y exp : Int) : Run Int :=
  if exp > 0 then
    (if Int.tmod exp 2 = 1 then mulmodChecked x y mod else Run.done x).bind fun x2 =>
      (mulmodChecked y y mod).bind fun y2 =>
        moduloLoopChecked mod x2 y2 (Int.tdiv exp 2)
  else Run.done x
termination_by exp.toNat
decreasing_by
  have h2 : Int.tdiv exp 2 = exp / 2 := Int.tdiv_eq_ediv (by omega) (by omega)
  omega

/-- The function `modulo` with its loop and `x % mod` checked. -/
def moduloChecked (b exp mod : Int) : Run Int :=
  (moduloLoopChecked mod 1 b exp).bind fun x => checkedMod x mod

/-- The squaring loop of `isPrimeMillerRabin` over the checked `mulmod`. -/
def squareLoopChecked (p : Int) : Nat → Int → Int → Run Int
  | 0, _, _ => Run.outOfFuel
  | fuel + 1, temp, mod =>
    if temp ≠ p - 1 ∧ mod ≠ 1 ∧ mod ≠ p - 1 then
      (mulmodChecked mod mod p).bind fun m2 => squareLoopChecked p fuel (wrap64 (temp * 2)) m2
    else Run.done mod

/-- One round of `isPrimeMillerRabin` over the checked `modulo` and `mulmod`. -/
def millerRabinRoundChecked (p s a : Int) : Run Bool :=
  (moduloChecked a s p).bind fun mod =>
    if mod = 1 ∨ mod = p - 1 then Run.done true
    else (squareLoopChecked p loopFuel s mod).bind fun m => Run.done (decide (m = p - 1))

/-- The `for` loop of `isPrimeMillerRabin` with `rand() % (p - 1)` checked. -/
def millerRabinRoundsChecked (g : Nat → Int) (p s : Int) : Nat → Nat → Run (Bool × Nat)
  | 0, k => Run.done (true, k)
  | n + 1, k =>
    (checkedMod (g k) (p - 1)).bind fun v =>
      (millerRabinRoundChecked p s (v + 1)).bind fun pass =>
        if pass then millerRabinRoundsChecked g p s n (k + 1) else Run.done (false, k + 1)

/-- The function `isPrimeMillerRabin` with every `%` by `p - 1` and by the modulus checked. -/
def isPrimeMillerRabinChecked (g : Nat → Int) (k : Nat) (p : Int) : Run (Bool × Nat) :=
  if p < 2 then Run.done (false, k)
  else if p ≠ 2 ∧ Int.tmod p 2 = 0 then Run.done (false, k)
  else
    match halveLoop loopFuel (p - 1) with
    | none => Run.outOfFuel
    | some s => millerRabinRoundsChecked g p s ACCURACY k

/-! ## The worker threads, interleaved

The increment `countTD++` of a worker is not atomic: it is a read of `countTD` followed by a
write of the value read plus one. A worker thread is run in atomic steps, and a schedule
chooses which thread steps next. -/

/-- A worker thread inside the loop of `primesTrialDivision`: the loop index `element` and,
between the read and the write of `countTD++`, the value that was read. -/
structure Worker where
  element : Nat
  loaded : Option Int

/-- One atomic step of the worker `threadId` of `cores`, given the current `countTD`: the
write that completes a pending `countTD++` (followed by `++element`); or, at an owned element
that trial division accepts, the read that begins `countTD++`; or the move to the next
element; or nothing once the loop is over. Returns the new `countTD` and worker. -/
def workerStep (numbers : List Int) (threadId cores : Int) (countTD : Int) (w : Worker) :
    Int × Worker :=
  match w.loaded with
  | some v => (wrap32 (v + 1), { element := w.element + 1, loaded := none })
  | none =>
    match numbers[w.element]? with
    | none => (countTD, w)
    | some x =>
      if owns w.element cores threadId = true ∧ isPrimeTrialDivision x = true then
        (countTD, { element := w.element, loaded := some countTD })
      else (countTD, { element := w.element + 1, loaded := none })

/-- The shared counter and the worker threads of `main`. -/
structure Machine where
  countTD : Int
  workers : List Worker

/-- The state when the threads are started: `countTD = 0`, every worker at `element = 0`. -/
def Machine.start (cores : Nat) : Machine :=
  { countTD := 0, workers := List.replicate cores { element := 0, loaded := none } }

/-- The scheduler lets thread `i` take one step. -/
def schedule (numbers : List Int) (cores : Nat) (m : Machine) (i : Nat) : Machine :=
  match m.workers[i]? with
  | none => m
  | some w =>
    { countTD := (workerStep numbers (i : Int) (cores : Int) m.countTD w).1,
      workers := m.workers.set i (workerStep numbers (i : Int) (cores : Int) m.countTD w).2 }

/-- The threads run under the interleaving `steps`, a list of thread indices. -/
def runSchedule (numbers : List Int) (cores : Nat) (steps : List Nat) : Machine :=
  steps.foldl (schedule numbers cores) (Machine.start cores)

/-- Every thread has left its loop, so that every `join` returns. -/
def joined (numbers : List Int) (m : Machine) : Bool :=
  m.workers.all (fun w => w.loaded.isNone && decide (numbers.length ≤ w.element))

/-- A worker stepping `n` times on its own. -/
def workerSteps (numbers : List Int) (threadId cores : Int) : Nat → Int × Worker → Int × Worker
  | 0, st => st
  | n + 1, st => workerSteps numbers threadId cores n (workerStep numbers threadId cores st.1 st.2)

/-! ## Trial division -/

theorem isPrimeTrialDivisionLoop_iff (n : Int) :
    ∀ (k : Nat) (i : Int), 2 ≤ i → (Int.sqrt n + 1 - i).toNat = k →
      (isPrimeTrialDivisionLoop n i = true ↔
        ∀ d : Int, i ≤ d → d ≤ Int.sqrt n → ¬ d ∣ n) := by
  intro k
  induction k with
  | zero =>
    intro i _ hk
    rw [isPrimeTrialDivisionLoop, if_neg (by omega)]
    simp only [true_iff]
    intro d h1 h2
    omega
  | succ k ih =>
    intro i hi hk
    have hle : i ≤ Int.sqrt n := by omega
    rw [isPrimeTrialDivisionLoop, if_pos hle]
    by_cases hdiv : Int.tmod n i = 0
    · rw [if_pos hdiv]
      simp only [Bool.false_eq_true, false_iff, not_forall]
      exact ⟨i, le_refl i, hle, not_not.mpr (Int.dvd_of_tmod_eq_zero hdiv)⟩
    · rw [if_neg hdiv, ih (i + 1) (by omega) (by omega)]
      constructor
      · intro h d h1 h2
        rcases eq_or_lt_of_le h1 with rfl | hlt
        · exact fun hd => hdiv (Int.tmod_eq_zero_of_dvd hd)
        · exact h d (by omega) h2
      · intro h d h1 h2
        exact h d (by omega) h2

theorem isPrimeTrialDivision_eq_true_iff (n : Int) :
    isPrimeTrialDivision n = true ↔ Nat.Prime n.toNat := by
  unfold isPrimeTrialDivision
  by_cases h1 : n ≤ 1
  · rw [if_pos h1]
    have : n.toNat ≤ 1 := by omega
    simp only [Bool.false_eq_true, false_iff]
    intro hp
    have := hp.two_le
    omega
  rw [if_neg h1]
  by_cases h2 : n = 2
  · subst h2
    simp only [if_true, true_iff]
    exact Nat.prime_two
  rw [if_neg h2, isPrimeTrialDivisionLoop_iff n _ 2 (le_refl 2) rfl, Nat.prime_def_le_sqrt]
  have hn : (n.toNat : Int) = n := Int.toNat_of_nonneg (by omega)
  constructor
  · intro h
    refine ⟨by omega, fun m hm1 hm2 hdvd => ?_⟩
    refine h (m : Int) (by exact_mod_cast hm1) ?_ ?_
    · unfold Int.sqrt
      exact_mod_cast hm2
    · rw [← hn]
      exact Int.natCast_dvd_natCast.mpr hdvd
  · rintro ⟨_, h⟩ d hd1 hd2 hdvd
    have hd : (d.toNat : Int) = d := Int.toNat_of_nonneg (by omega)
    refine h d.toNat (by omega) ?_ ?_
    · unfold Int.sqrt at hd2
      omega
    · rw [← hn, ← hd] at hdvd
      exact Int.natCast_dvd_natCast.mp hdvd

/-- C1: `isPrimeTrialDivision(n)` is true exactly when `n` is a prime number (the loop bound
read as `i ≤ ⌊√n⌋`); it is false for every `n ≤ 1` and true for `n = 2`. -/
theorem isPrimeTrialDivision_correct (n : Int) :
    (isPrimeTrialDivision n = true ↔ Nat.Prime n.toNat) ∧
    (n ≤ 1 → isPrimeTrialDivision n = false) ∧
    isPrimeTrialDivision 2 = true := by
  refine ⟨isPrimeTrialDivision_eq_true_iff n, fun h => ?_, ?_⟩
  · rw [isPrimeTrialDivision, if_pos h]
  · rw [isPrimeTrialDivision, if_neg (by decide), if_pos rfl]

/-! ## `mulmod` -/

theorem wrap64_of_range {x : Int} (h1 : -2 ^ 63 ≤ x) (h2 : x < 2 ^ 63) : wrap64 x = x := by
  unfold wrap64
  omega

theorem mulmodLoop_pos {mod x y b : Int} (h : b > 0) :
    mulmodLoop mod x y b =
      mulmodLoop mod (if Int.tmod b 2 = 1 then Int.tmod (wrap64 (x + y)) mod else x)
        (Int.tmod (wrap64 (y * 2)) mod) (Int.tdiv b 2) := by
  rw [mulmodLoop, if_pos h]

theorem mulmodLoop_nonpos {mod x y b : Int} (h : ¬ b > 0) : mulmodLoop mod x y b = x := by
  rw [mulmodLoop, if_neg h]

/-- The loop of `mulmod` on non-negative reduced operands, for a modulus of at most `2^62`:
no sum or doubling leaves the 64-bit range and the loop returns `(x + y * b) mod m`. -/
theorem mulmodLoop_eq (m : Int) (hm : 0 < m) (hm2 : m ≤ 2 ^ 62) :
    ∀ (k : Nat) (x y b : Int), b.toNat = k → 0 ≤ b → 0 ≤ x → x < m → 0 ≤ y → y < m →
      mulmodLoop m x y b = (x + y * b) % m := by
  intro k
  induction k using Nat.strong_induction_on with
  | _ k ih =>
    intro x y b hk hb0 hx0 hxm hy0 hym
    by_cases hb : b > 0
    · rw [mulmodLoop_pos hb]
      have hdiv : Int.tdiv b 2 = b / 2 := Int.tdiv_eq_ediv (by omega) (by omega)
      have hmod : Int.tmod b 2 = b % 2 := Int.tmod_eq_emod (by omega) (by omega)
      have hw1 : wrap64 (x + y) = x + y := wrap64_of_range (by omega) (by omega)
      have hw2 : wrap64 (y * 2) = y * 2 := wrap64_of_range (by omega) (by omega)
      have ht1 : Int.tmod (x + y) m = (x + y) % m := Int.tmod_eq_emod (by omega) (by omega)
      have ht2 : Int.tmod (y * 2) m = (y * 2) % m := Int.tmod_eq_emod (by omega) (by omega)
      rw [hdiv, hmod, hw1, hw2, ht1, ht2]
      have hy2 : 0 ≤ (y * 2) % m ∧ (y * 2) % m < m :=
        ⟨Int.emod_nonneg _ (by omega), Int.emod_lt_of_pos _ hm⟩
      have hxy : 0 ≤ (x + y) % m ∧ (x + y) % m < m :=
        ⟨Int.emod_nonneg _ (by omega), Int.emod_lt_of_pos _ hm⟩
      have hb2 : b = 2 * (b / 2) + b % 2 := (Int.ediv_add_emod b 2).symm
      by_cases hodd : b % 2 = 1
      · rw [if_pos hodd, ih (b / 2).toNat (by omega) _ _ _ rfl (by omega) hxy.1 hxy.2 hy2.1 hy2.2]
        have e : x + y * b = (x + y) + (y * 2) * (b / 2) := by
          rw [hodd] at hb2
          nth_rewrite 1 [hb2]
          ring
        rw [e]
        simp [Int.add_emod, Int.mul_emod]
      · rw [if_neg hodd, ih (b / 2).toNat (by omega) _ _ _ rfl (by omega) hx0 hxm hy2.1 hy2.2]
        have e : x + y * b = x + (y * 2) * (b / 2) := by
          have h0 : b % 2 = 0 := by omega
          rw [h0] at hb2
          nth_rewrite 1 [hb2]
          ring
        rw [e]
        simp [Int.add_emod, Int.mul_emod]
    · rw [mulmodLoop_nonpos hb]
      have hb1 : b = 0 := by omega
      subst hb1
      simp only [mul_zero, add_zero]
      exact (Int.emod_eq_of_lt hx0 hxm).symm

/-- For `b ≥ 0` and `0 < m ≤ 2^62`, `mulmod` on a non-negative `a` is the exact residue. -/
theorem mulmod_eq_emod {a b m : Int} (ha : 0 ≤ a) (hm : 0 < m) (hm2 : m ≤ 2 ^ 62) :
    mulmod a b m = (a * b.toNat) % m := by
  unfold mulmod
  have hy : Int.tmod a m = a % m := Int.tmod_eq_emod ha (by omega)
  have hy0 : 0 ≤ a % m := Int.emod_nonneg _ (by omega)
  have hym : a % m < m := Int.emod_lt_of_pos _ hm
  by_cases hb : 0 ≤ b
  · rw [hy, mulmodLoop_eq m hm hm2 _ 0 (a % m) b rfl hb (le_refl 0) hm hy0 hym]
    rw [Int.tmod_eq_emod (Int.emod_nonneg _ (by omega)) (by omega)]
    rw [Int.toNat_of_nonneg hb]
    simp [Int.mul_emod]
  · rw [mulmodLoop_nonpos (by omega)]
    have : (b.toNat : Int) = 0 := by omega
    rw [this]
    simp

theorem neg_tmod (a b : Int) : Int.tmod (-a) b = -Int.tmod a b := by
  rw [Int.tmod_def, Int.tmod_def, Int.neg_tdiv]
  ring

/-- Negating both accumulators negates the result of the loop of `mulmod`: on a negative
`a` the loop runs on the mirrored values. -/
theorem mulmodLoop_neg (m : Int) (hm : 0 < m) (hm2 : m ≤ 2 ^ 62) :
    ∀ (k : Nat) (x y b : Int), b.toNat = k → 0 ≤ x → x < m → 0 ≤ y → y < m →
      mulmodLoop m (-x) (-y) b = -mulmodLoop m x y b := by
  intro k
  induction k using Nat.strong_induction_on with
  | _ k ih =>
    intro x y b hk hx0 hxm hy0 hym
    by_cases hb : b > 0
    · rw [mulmodLoop_pos hb, mulmodLoop_pos hb]
      have hdiv : Int.tdiv b 2 = b / 2 := Int.tdiv_eq_ediv (by omega) (by omega)
      have hw1 : wrap64 (x + y) = x + y := wrap64_of_range (by omega) (by omega)
      have hw2 : wrap64 (y * 2) = y * 2 := wrap64_of_range (by omega) (by omega)
      have hw3 : wrap64 (-x + -y) = -(x + y) := by
        rw [wrap64_of_range (by omega) (by omega)]; ring
      have hw4 : wrap64 (-y * 2) = -(y * 2) := by
        rw [wrap64_of_range (by omega) (by omega)]; ring
      rw [hw1, hw2, hw3, hw4, neg_tmod, neg_tmod]
      have hy2 : 0 ≤ Int.tmod (y * 2) m ∧ Int.tmod (y * 2) m < m :=
        ⟨Int.tmod_nonneg _ (by omega), Int.tmod_lt_of_pos _ hm⟩
      have hxy : 0 ≤ Int.tmod (x + y) m ∧ Int.tmod (x + y) m < m :=
        ⟨Int.tmod_nonneg _ (by omega), Int.tmod_lt_of_pos _ hm⟩
      by_cases hodd : Int.tmod b 2 = 1
      · rw [if_pos hodd, if_pos hodd]
        exact ih (b / 2).toNat (by omega) _ _ _ (by rw [hdiv]) hxy.1 hxy.2 hy2.1 hy2.2
      · rw [if_neg hodd, if_neg hodd]
        exact ih (b / 2).toNat (by omega) _ _ _ (by rw [hdiv]) hx0 hxm hy2.1 hy2.2
    · rw [mulmodLoop_nonpos hb, mulmodLoop_nonpos hb]

/-- For `b ≥ 0` and `0 < m ≤ 2^62`, `mulmod(a, b, m)` is the C++ remainder of the exact
product `a * b` by `m`, whatever the sign of `a`. -/
theorem mulmod_eq_tmod {a b m : Int} (hb : 0 ≤ b) (hm : 0 < m) (hm2 : m ≤ 2 ^ 62) :
    mulmod a b m = Int.tmod (a * b) m := by
  by_cases ha : 0 ≤ a
  · rw [mulmod_eq_emod ha hm hm2, Int.toNat_of_nonneg hb,
      Int.tmod_eq_emod (Int.mul_nonneg ha hb) (by omega)]
  · have hna : 0 ≤ -a := by omega
    have h1 := mulmod_eq_emod (b := b) hna hm hm2
    rw [Int.toNat_of_nonneg hb] at h1
    unfold mulmod at h1 ⊢
    have hy : Int.tmod a m = -Int.tmod (-a) m := by rw [neg_tmod, neg_neg]
    have hy0 : 0 ≤ Int.tmod (-a) m := Int.tmod_nonneg _ hna
    have hym : Int.tmod (-a) m < m := Int.tmod_lt_of_pos _ hm
    have h0 : (0 : Int) = -0 := by simp
    rw [hy]
    nth_rewrite 1 [h0]
    rw [mulmodLoop_neg m hm hm2 _ 0 _ b rfl (le_refl 0) hm hy0 hym, neg_tmod, h1,
      ← Int.tmod_eq_emod (Int.mul_nonneg hna hb) (by omega), ← neg_tmod]
    congr 1
    ring

/-- For `b ≤ 0` the loop of `mulmod` is skipped and the result is `0`. -/
theorem mulmod_of_nonpos (a : Int) {b : Int} (m : Int) (hb : b ≤ 0) : mulmod a b m = 0 := by
  unfold mulmod
  rw [mulmodLoop_nonpos (by omega)]
  simp

/-! ## `modulo` -/

theorem moduloLoop_pos {mod x y exp : Int} (h : exp > 0) :
    moduloLoop mod x y exp =
      moduloLoop mod (if Int.tmod exp 2 = 1 then mulmod x y mod else x)
        (mulmod y y mod) (Int.tdiv exp 2) := by
  rw [moduloLoop, if_pos h]

theorem moduloLoop_nonpos {mod x y exp : Int} (h : ¬ exp > 0) : moduloLoop mod x y exp = x := by
  rw [moduloLoop, if_neg h]

/-- The loop of `modulo` for a modulus of at most `2^62`: the accumulator stays non-negative
and ends congruent to `x * y ^ exp`. -/
theorem moduloLoop_eq (m : Int) (hm : 0 < m) (hm2 : m ≤ 2 ^ 62) :
    ∀ (k : Nat) (x y e : Int), e.toNat = k → 0 ≤ x → 0 ≤ y →
      0 ≤ moduloLoop m x y e ∧ moduloLoop m x y e % m = (x * y ^ e.toNat) % m := by
  intro k
  induction k using Nat.strong_induction_on with
  | _ k ih =>
    intro x y e hk hx hy
    by_cases he : e > 0
    · rw [moduloLoop_pos he]
      have hdiv : Int.tdiv e 2 = e / 2 := Int.tdiv_eq_ediv (by omega) (by omega)
      have hmod : Int.tmod e 2 = e % 2 := Int.tmod_eq_emod (by omega) (by omega)
      have hyy : mulmod y y m = (y * y) % m := by
        rw [mulmod_eq_emod hy hm hm2, Int.toNat_of_nonneg hy]
      have hxy : mulmod x y m = (x * y) % m := by
        rw [mulmod_eq_emod hx hm hm2, Int.toNat_of_nonneg hy]
      have hyy0 : 0 ≤ (y * y) % m := Int.emod_nonneg _ (by omega)
      have hxy0 : 0 ≤ (x * y) % m := Int.emod_nonneg _ (by omega)
      rw [hdiv, hmod, hyy, hxy]
      have hsq : ((y * y) % m) ^ (e / 2).toNat ≡ (y ^ 2) ^ (e / 2).toNat [ZMOD m] := by
        apply Int.ModEq.pow
        rw [pow_two]
        exact Int.mod_modEq _ _
      by_cases hodd : e % 2 = 1
      · rw [if_pos hodd]
        obtain ⟨h0, h1⟩ := ih (e / 2).toNat (by omega) ((x * y) % m) ((y * y) % m) (e / 2) rfl
          hxy0 hyy0
        refine ⟨h0, h1.trans ?_⟩
        have hexp : e.toNat = 2 * (e / 2).toNat + 1 := by omega
        rw [hexp, pow_succ, pow_mul]
        have : (x * y) % m * ((y * y) % m) ^ (e / 2).toNat ≡
            (x * y) * (y ^ 2) ^ (e / 2).toNat [ZMOD m] :=
          Int.ModEq.mul (Int.mod_modEq _ _) hsq
        rw [show x * ((y ^ 2) ^ (e / 2).toNat * y) = (x * y) * (y ^ 2) ^ (e / 2).toNat by ring]
        exact this
      · rw [if_neg hodd]
        obtain ⟨h0, h1⟩ := ih (e / 2).toNat (by omega) x ((y * y) % m) (e / 2) rfl hx hyy0
        refine ⟨h0, h1.trans ?_⟩
        have hexp : e.toNat = 2 * (e / 2).toNat := by omega
        rw [hexp, pow_mul]
        exact Int.ModEq.mul rfl hsq
    · rw [moduloLoop_nonpos he]
      have : e.toNat = 0 := by omega
      rw [this, pow_zero, mul_one]
      exact ⟨hx, rfl⟩

/-- For `base, exp ≥ 0` and `0 < m ≤ 2^62`, `modulo` is exact modular exponentiation. -/
theorem modulo_eq {b e m : Int} (hb : 0 ≤ b) (hm : 0 < m) (hm2 : m ≤ 2 ^ 62) :
    modulo b e m = (b ^ e.toNat) % m := by
  unfold modulo
  obtain ⟨h0, h1⟩ := moduloLoop_eq m hm hm2 _ 1 b e rfl (by decide) hb
  rw [Int.tmod_eq_emod h0 (by omega), h1, one_mul]

/-- C2 (counterexample): with a negative `b` the loop of `mulmod` is skipped and the result is
`0`, which is not the residue of `a * b` (nor its C++ remainder); with a negative `a` the
result is negative. So the claim fails for operands of either sign. -/
theorem mulmod_signed_counterexample :
    mulmod 1 (-1) 5 = 0 ∧ ((1 : Int) * (-1)) % 5 = 4 ∧ Int.tmod ((1 : Int) * (-1)) 5 = -1 ∧
    mulmod (-1) 1 5 = -1 ∧ ((-1 : Int) * 1) % 5 = 4 ∧
    ¬ ∀ a b m : Int, -2 ^ 63 ≤ a → a < 2 ^ 63 → -2 ^ 63 ≤ b → b < 2 ^ 63 → m < 2 ^ 63 →
        0 < m → mulmod a b m = (a * b) % m := by
  have h1 : mulmod 1 (-1) 5 = 0 := by
    unfold mulmod
    rw [mulmodLoop_nonpos (by decide)]
    decide
  have h2 : mulmod (-1) 1 5 = -1 := by
    unfold mulmod
    rw [mulmodLoop_pos (by decide), mulmodLoop_nonpos (by decide)]
    decide
  refine ⟨h1, by decide, by decide, h2, by decide, fun h => ?_⟩
  have h3 := h 1 (-1) 5 (by decide) (by decide) (by decide) (by decide) (by decide) (by decide)
  rw [h1] at h3
  exact absurd h3 (by decide)

/-- C2 (amended): for every `a`, every `m` with `0 < m ≤ 2^62`: when `b ≥ 0`, `mulmod(a, b, m)`
is the C++ remainder of the exact product `a * b` by `m` (truncated toward zero), which is the
residue `(a * b) mod m` in `[0, m)` when `a ≥ 0`; when `b ≤ 0` the loop is skipped and the
result is `0`. -/
theorem mulmod_spec (a b m : Int) (hm : 0 < m) (hm2 : m ≤ 2 ^ 62) :
    (0 ≤ b → mulmod a b m = Int.tmod (a * b) m) ∧
    (0 ≤ a → 0 ≤ b → mulmod a b m = (a * b) % m) ∧
    (b ≤ 0 → mulmod a b m = 0) := by
  refine ⟨fun hb => mulmod_eq_tmod hb hm hm2, fun ha hb => ?_, fun hb => mulmod_of_nonpos a m hb⟩
  rw [mulmod_eq_emod ha hm hm2, Int.toNat_of_nonneg hb]

/-- Witness for `mulmod_spec`: `a = -7`, `b = 5`, `m = 3`. -/
theorem mulmod_spec_witness :
    (0 : Int) < 3 ∧ (3 : Int) ≤ 2 ^ 62 ∧ mulmod (-7) 5 3 = Int.tmod (-7 * 5) 3 :=
  ⟨by decide, by decide, (mulmod_spec (-7) 5 3 (by decide) (by decide)).1 (by decide)⟩

/-- C3 (failing input): for the modulus `2^63 - 1` the doubling `y * 2` leaves the 64-bit range:
`mulmod(2^63 - 2, 3, 2^63 - 1)` returns `2^63 - 6`, while `((2^63 - 2) * 3) mod (2^63 - 1)`
is `2^63 - 4`. -/
theorem mulmod_wide_modulus_overflow :
    mulmod (2 ^ 63 - 2) 3 (2 ^ 63 - 1) = 2 ^ 63 - 6 ∧
    (((2 : Int) ^ 63 - 2) * 3) % (2 ^ 63 - 1) = 2 ^ 63 - 4 ∧
    wrap64 (((2 : Int) ^ 63 - 2) * 2) = -4 := by
  refine ⟨?_, by decide, by decide⟩
  unfold mulmod
  rw [mulmodLoop_pos (by decide), mulmodLoop_pos (by decide), mulmodLoop_nonpos (by decide)]
  decide

/-- C4: for `base ≥ 0`, `exponent ≥ 0` and `0 < m ≤ 2^62`, `modulo(base, exponent, m)` is
`(base ^ exponent) mod m` computed in unbounded integers; for `exponent = 0` this is
`1 mod m`, which is `0` when `m = 1`. -/
theorem modulo_correct (base exponent m : Int) (hb : 0 ≤ base) (he : 0 ≤ exponent)
    (hm : 0 < m) (hm2 : m ≤ 2 ^ 62) :
    modulo base exponent m = (base ^ exponent.toNat) % m ∧
    (exponent.toNat : Int) = exponent ∧
    modulo base 0 m = 1 % m ∧ modulo base 0 1 = 0 := by
  refine ⟨modulo_eq hb hm hm2, Int.toNat_of_nonneg he, ?_, ?_⟩
  · rw [modulo_eq hb hm hm2]
    simp
  · rw [modulo_eq hb (by decide) (by decide)]
    simp

/-- Witness for `modulo_correct`: `base = 7`, `exponent = 5`, `m = 10`. -/
theorem modulo_correct_witness :
    (0 : Int) ≤ 7 ∧ (0 : Int) ≤ 5 ∧ (0 : Int) < 10 ∧ (10 : Int) ≤ 2 ^ 62 ∧
    modulo 7 5 10 = (7 ^ (5 : Int).toNat) % 10 :=
  ⟨by decide, by decide, by decide, by decide,
    (modulo_correct 7 5 10 (by decide) (by decide) (by decide) (by decide)).1⟩

/-- The two guards of `isPrimeMillerRabin` return false before anything is drawn. -/
theorem isPrimeMillerRabin_small_or_even_aux (g : Nat → Int) (k : Nat) (p : Int)
    (h : p < 2 ∨ (2 ∣ p ∧ p ≠ 2)) : isPrimeMillerRabin g k p = some (false, k) := by
  unfold isPrimeMillerRabin
  by_cases h1 : p < 2
  · rw [if_pos h1]
  · rw [if_neg h1]
    rcases h with h | ⟨h2, h3⟩
    · exact absurd h h1
    · rw [if_pos ⟨h3, Int.tmod_eq_zero_of_dvd h2⟩]

/-- C6: for `p < 2`, and for every even `p` other than `2`, `isPrimeMillerRabin(p)` returns
false and leaves the cursor of `rand()` where it was: no witness is drawn, whatever the
generator. -/
theorem isPrimeMillerRabin_small_or_even (g : Nat → Int) (k : Nat) (p : Int)
    (h : p < 2 ∨ (2 ∣ p ∧ p ≠ 2)) : isPrimeMillerRabin g k p = some (false, k) := by
  unfold isPrimeMillerRabin
  rcases h with h | ⟨h2, h3⟩
  · rw [if_pos h]
  · by_cases h1 : p < 2
    · rw [if_pos h1]
    · rw [if_neg h1, if_pos ⟨h3, Int.tmod_eq_zero_of_dvd h2⟩]

/-- Witness for `isPrimeMillerRabin_small_or_even`: `p = 10` with the constant generator. -/
theorem isPrimeMillerRabin_small_or_even_witness :
    ((10 : Int) < 2 ∨ ((2 : Int) ∣ 10 ∧ (10 : Int) ≠ 2)) ∧
    isPrimeMillerRabin (fun _ => 3) 0 10 = some (false, 0) :=
  ⟨Or.inr ⟨by decide, by decide⟩,
    isPrimeMillerRabin_small_or_even (fun _ => 3) 0 10 (Or.inr ⟨by decide, by decide⟩)⟩

/-! ## Partitioning -/

theorem wrap32_of_range {x : Int} (h1 : -2 ^ 31 ≤ x) (h2 : x < 2 ^ 31) : wrap32 x = x := by
  unfold wrap32
  omega

/-- For a worker count in the range of `int` and a worker index below it, the ownership test
is the comparison of the residue of the index with the worker index. -/
theorem owns_iff (i C w : Nat) (hC : 1 ≤ C) (hC2 : C < 2 ^ 31) (hw : w < C) :
    owns i (C : Int) (w : Int) = true ↔ i % C = w := by
  unfold owns toUnsignedLong
  have h1 : (C : Int) % 2 ^ 64 = C := by omega
  have h2 : (w : Int) % 2 ^ 64 = w := by omega
  rw [h1, h2, Int.tmod_eq_emod (by omega) (by omega), decide_eq_true_iff]
  constructor
  · intro h
    exact_mod_cast h
  · intro h
    exact_mod_cast h

theorem mem_partition_iff (L i C w : Nat) (hC : 1 ≤ C) (hC2 : C < 2 ^ 31) (hw : w < C) :
    i ∈ partition L (C : Int) (w : Int) ↔ i < L ∧ i % C = w := by
  unfold partition
  rw [Finset.mem_filter, Finset.mem_range, owns_iff i C w hC hC2 hw]

/-- C7: for every list length `L` and every worker count `C ≥ 1` (an `int`), each index below
`L` passes the ownership test `i % C == w` for exactly one worker index `w` in `[0, C)`; the
partitions are pairwise disjoint and their union is `{0, ..., L-1}`. -/
theorem partition_complete (L : Nat) (C : Nat) (hC : 1 ≤ C) (hC2 : C < 2 ^ 31) :
    (∀ i, i < L → ∃! w : Nat, w < C ∧ owns i (C : Int) (w : Int) = true) ∧
    (∀ w w2 : Nat, w < C → w2 < C → w ≠ w2 →
      Disjoint (partition L (C : Int) (w : Int)) (partition L (C : Int) (w2 : Int))) ∧
    (Finset.range C).biUnion (fun w => partition L (C : Int) (w : Int)) = Finset.range L := by
  refine ⟨fun i _ => ?_, fun w w2 hw hw2 hne => ?_, ?_⟩
  · have hlt : i % C < C := Nat.mod_lt _ (by omega)
    refine ⟨i % C, ⟨hlt, (owns_iff i C _ hC hC2 hlt).mpr rfl⟩, ?_⟩
    rintro w ⟨hw, ho⟩
    exact ((owns_iff i C w hC hC2 hw).mp ho).symm
  · rw [Finset.disjoint_left]
    intro i h1 h2
    rw [mem_partition_iff L i C _ hC hC2 hw] at h1
    rw [mem_partition_iff L i C _ hC hC2 hw2] at h2
    exact hne (h1.2.symm.trans h2.2)
  · ext i
    rw [Finset.mem_biUnion, Finset.mem_range]
    constructor
    · rintro ⟨w, hw, hi⟩
      rw [Finset.mem_range] at hw
      exact ((mem_partition_iff L i C w hC hC2 hw).mp hi).1
    · intro hi
      have hlt : i % C < C := Nat.mod_lt _ (by omega)
      exact ⟨i % C, Finset.mem_range.mpr hlt,
        (mem_partition_iff L i C _ hC hC2 hlt).mpr ⟨hi, rfl⟩⟩

/-- Witness for `partition_complete`: six elements, two workers. -/
theorem partition_complete_witness :
    1 ≤ 2 ∧ 2 < 2 ^ 31 ∧
    (Finset.range 2).biUnion (fun w => partition 6 ((2 : Nat) : Int) (w : Int)) = Finset.range 6 :=
  ⟨by decide, by decide, (partition_complete 6 2 (by decide) (by decide)).2.2⟩

/-! ## The pass of trial division over the list -/

theorem wrap32_idem (x : Int) : wrap32 (wrap32 x) = wrap32 x := by
  unfold wrap32
  omega

theorem wrap32_add_wrap32 (x y : Int) : wrap32 (wrap32 x + y) = wrap32 (x + y) := by
  unfold wrap32
  omega

/-- The loop of `primesTrialDivision` adds to `countTD`, with the wrap-around of `int`, the
number of owned elements that trial division accepts. -/
theorem primesTrialDivisionLoop_eq (C w : Nat) (hC : 1 ≤ C) (hC2 : C < 2 ^ 31) (hw : w < C) :
    ∀ (todo : List Int) (e : Nat) (c : Int), wrap32 c = c →
      primesTrialDivisionLoop (w : Int) (C : Int) todo e c
        = wrap32 (c + (ownedPrimes C w todo e : Int)) := by
  intro todo
  induction todo with
  | nil =>
    intro e c hc
    simp [primesTrialDivisionLoop, ownedPrimes, hc]
  | cons x t ih =>
    intro e c hc
    simp only [ownedPrimes]
    rw [primesTrialDivisionLoop]
    by_cases ho : e % C = w
    · rw [if_pos ((owns_iff e C w hC hC2 hw).mpr ho)]
      by_cases hp : isPrimeTrialDivision x = true
      · rw [if_pos hp, if_pos ⟨ho, hp⟩, ih (e + 1) _ (wrap32_idem _), wrap32_add_wrap32]
        push_cast
        congr 1
        ring
      · rw [if_neg hp, if_neg (fun h => hp h.2), ih (e + 1) c hc]
        push_cast
        congr 1
        ring
    · have hno : ¬ owns e (C : Int) (w : Int) = true :=
        fun h => ho ((owns_iff e C w hC hC2 hw).mp h)
      rw [if_neg hno, if_neg (fun h => ho h.1), ih (e + 1) c hc]
      push_cast
      congr 1
      ring

theorem primesBelow_succ (C w : Nat) : ∀ (todo : List Int) (e : Nat),
    primesBelow C (w + 1) todo e = primesBelow C w todo e + ownedPrimes C w todo e := by
  intro todo
  induction todo with
  | nil => intro e; simp [primesBelow, ownedPrimes]
  | cons x t ih =>
    intro e
    simp only [primesBelow, ownedPrimes, ih (e + 1)]
    by_cases hp : isPrimeTrialDivision x = true
    · rcases Nat.lt_trichotomy (e % C) w with h | h | h
      · rw [if_pos ⟨by omega, hp⟩, if_pos ⟨h, hp⟩, if_neg (fun h2 => by omega)]
        omega
      · rw [if_pos ⟨by omega, hp⟩, if_neg (fun h2 => by omega), if_pos ⟨h, hp⟩]
        omega
      · rw [if_neg (fun h2 => by omega), if_neg (fun h2 => by omega),
          if_neg (fun h2 => by omega)]
        omega
    · rw [if_neg (fun h2 => hp h2.2), if_neg (fun h2 => hp h2.2), if_neg (fun h2 => hp h2.2)]
      omega

theorem primesBelow_zero (C : Nat) : ∀ (todo : List Int) (e : Nat),
    primesBelow C 0 todo e = 0 := by
  intro todo
  induction todo with
  | nil => intro e; simp [primesBelow]
  | cons x t ih => intro e; simp [primesBelow, ih (e + 1)]

theorem primesBelow_all (C : Nat) (hC : 1 ≤ C) : ∀ (todo : List Int) (e : Nat),
    primesBelow C C todo e = todo.countP isPrimeTrialDivision := by
  intro todo
  induction todo with
  | nil => intro e; simp [primesBelow]
  | cons x t ih =>
    intro e
    have hlt : e % C < C := Nat.mod_lt _ (by omega)
    simp only [primesBelow, ih (e + 1), List.countP_cons]
    by_cases hp : isPrimeTrialDivision x = true
    · rw [if_pos ⟨hlt, hp⟩, if_pos hp]
      omega
    · rw [if_neg (fun h => hp h.2), if_neg hp]
      omega

/-- Running the workers `0, ..., w - 1` one after another from `countTD = 0` leaves in
`countTD` the number of accepted elements with an index of residue below `w`, wrapped to the
range of `int`. -/
theorem foldl_primesTrialDivision (numbers : List Int) (C : Nat) (hC : 1 ≤ C)
    (hC2 : C < 2 ^ 31) :
    ∀ w, w ≤ C →
      (List.range w).foldl
          (fun (c : Int) (i : Nat) => primesTrialDivision numbers (i : Int) (C : Int) c) 0
        = wrap32 (primesBelow C w numbers 0 : Int) := by
  intro w
  induction w with
  | zero =>
    intro _
    rw [primesBelow_zero]
    rfl
  | succ w ih =>
    intro hw
    rw [List.range_succ, List.foldl_append, ih (by omega)]
    simp only [List.foldl_cons, List.foldl_nil]
    unfold primesTrialDivision
    rw [primesTrialDivisionLoop_eq C w hC hC2 (by omega) numbers 0 _ (wrap32_idem _),
      wrap32_add_wrap32, primesBelow_succ]
    push_cast
    rfl

theorem runTrialDivision_eq (numbers : List Int) (C : Nat) (hC : 1 ≤ C) (hC2 : C < 2 ^ 31) :
    runTrialDivision numbers C 0 = wrap32 (numbers.countP isPrimeTrialDivision : Int) := by
  unfold runTrialDivision
  rw [foldl_primesTrialDivision numbers C hC hC2 C (le_refl C), primesBelow_all C hC]

/-- C8 (counterexample): the counter `countTD` is an `int`. On the list that holds `2` exactly
`2^31` times, `isPrimeTrialDivision` accepts all `2^31 = 2147483648` elements, and the
single-worker run `primesTrialDivision(list, 0, 1)` from `countTD = 0` ends with
`countTD = -2147483648`, which is not the number of accepted elements. -/
theorem countTD_wraps_counterexample :
    ((List.replicate (2 ^ 31) (2 : Int)).countP isPrimeTrialDivision : Int) = 2147483648 ∧
    runTrialDivision (List.replicate (2 ^ 31) 2) 1 0 = -2147483648 ∧
    runTrialDivision (List.replicate (2 ^ 31) 2) 1 0
      ≠ ((List.replicate (2 ^ 31) (2 : Int)).countP isPrimeTrialDivision : Int) := by
  have h2 : isPrimeTrialDivision 2 = true := by decide
  have hc : (List.replicate (2 ^ 31) (2 : Int)).countP isPrimeTrialDivision = 2147483648 := by
    rw [List.countP_replicate, if_pos h2]
    norm_num
  have hw : wrap32 ((2147483648 : Nat) : Int) = -2147483648 := by decide
  have hr : runTrialDivision (List.replicate (2 ^ 31) 2) 1 0 = -2147483648 := by
    rw [runTrialDivision_eq _ 1 (le_refl 1) (by decide), hc, hw]
  refine ⟨?_, hr, ?_⟩
  · rw [hc]; rfl
  · rw [hr, hc]; decide

/-- C8 (amended): for every list and every worker count `1 ≤ C < 2^31`, running
`primesTrialDivision(list, w, C)` for `w = 0, ..., C - 1` one after another from
`countTD = 0` leaves in `countTD` the number of elements that `isPrimeTrialDivision` accepts
reduced to an `int` (two's complement, 32 bits); it is exactly that number whenever fewer than
`2^31` elements are accepted, in particular for every list shorter than `2^31`; and in every
case it is the result of the single-worker run. For `[2, 3, 4, 17, 18, 97]` the verdicts are
`[true, true, false, true, false, true]` and with two workers the total is 4. -/
theorem countTD_partition_invariant (numbers : List Int) (C : Nat) (hC : 1 ≤ C)
    (hC2 : C < 2 ^ 31) :
    runTrialDivision numbers C 0 = wrap32 (numbers.countP isPrimeTrialDivision : Int) ∧
    (numbers.countP isPrimeTrialDivision < 2 ^ 31 →
      runTrialDivision numbers C 0 = (numbers.countP isPrimeTrialDivision : Int)) ∧
    (numbers.length < 2 ^ 31 →
      runTrialDivision numbers C 0 = (numbers.countP isPrimeTrialDivision : Int)) ∧
    runTrialDivision numbers C 0 = runTrialDivision numbers 1 0 ∧
    runTrialDivision [2, 3, 4, 17, 18, 97] 2 0 = 4 ∧
    [2, 3, 4, 17, 18, 97].map isPrimeTrialDivision = [true, true, false, true, false, true] := by
  have hex : [2, 3, 4, 17, 18, 97].map isPrimeTrialDivision
      = [true, true, false, true, false, true] := by
    have h2 : isPrimeTrialDivision 2 = true :=
      (isPrimeTrialDivision_eq_true_iff 2).mpr (by rw [show Int.toNat 2 = 2 from rfl]; norm_num)
    have h3 : isPrimeTrialDivision 3 = true :=
      (isPrimeTrialDivision_eq_true_iff 3).mpr (by rw [show Int.toNat 3 = 3 from rfl]; norm_num)
    have h17 : isPrimeTrialDivision 17 = true :=
      (isPrimeTrialDivision_eq_true_iff 17).mpr (by rw [show Int.toNat 17 = 17 from rfl]; norm_num)
    have h97 : isPrimeTrialDivision 97 = true :=
      (isPrimeTrialDivision_eq_true_iff 97).mpr (by rw [show Int.toNat 97 = 97 from rfl]; norm_num)
    have h4 : isPrimeTrialDivision 4 = false :=
      Bool.eq_false_iff.mpr (fun h => absurd ((isPrimeTrialDivision_eq_true_iff 4).mp h)
        (by rw [show Int.toNat 4 = 4 from rfl]; norm_num))
    have h18 : isPrimeTrialDivision 18 = false :=
      Bool.eq_false_iff.mpr (fun h => absurd ((isPrimeTrialDivision_eq_true_iff 18).mp h)
        (by rw [show Int.toNat 18 = 18 from rfl]; norm_num))
    simp only [List.map, h2, h3, h4, h17, h18, h97]
  refine ⟨runTrialDivision_eq numbers C hC hC2, fun hcnt => ?_, fun hlen => ?_, ?_, ?_, hex⟩
  · rw [runTrialDivision_eq numbers C hC hC2]
    exact wrap32_of_range (by omega) (by omega)
  · rw [runTrialDivision_eq numbers C hC hC2]
    have hle : numbers.countP isPrimeTrialDivision ≤ numbers.length := List.countP_le_length _
    exact wrap32_of_range (by omega) (by omega)
  · rw [runTrialDivision_eq numbers C hC hC2,
      runTrialDivision_eq numbers 1 (le_refl 1) (by decide)]
  · have hcount : [2, 3, 4, 17, 18, 97].countP isPrimeTrialDivision
        = ([2, 3, 4, 17, 18, 97].map isPrimeTrialDivision).count true := by
      rw [List.count, List.countP_map]
      congr 1
      funext x
      simp
    rw [runTrialDivision_eq _ 2 (by decide) (by decide), hcount, hex]
    rfl

/-- Witness for `countTD_partition_invariant`: the list `[2, 3, 4, 17, 18, 97]`, two workers. -/
theorem countTD_partition_invariant_witness :
    1 ≤ 2 ∧ 2 < 2 ^ 31 ∧ [2, 3, 4, 17, 18, (97 : Int)].length < 2 ^ 31 ∧
    runTrialDivision [2, 3, 4, 17, 18, 97] 2 0
      = ([2, 3, 4, 17, 18, (97 : Int)].countP isPrimeTrialDivision : Int) :=
  ⟨by decide, by decide, by decide,
    (countTD_partition_invariant [2, 3, 4, 17, 18, 97] 2 (by decide) (by decide)).2.2.1
      (by decide)⟩

/-! ## The promotion in `primesLibGmp` -/

/-- C9 (failing input): `mpz_set_ui` takes an `unsigned long`, so a negative element reaches
the library as its value plus `2^64`: for `-1` the library is asked about `2^64 - 1`, for `-59`
about `2^64 - 59`, and the counter moves on the verdict for that number. Non-negative elements
are handed over unchanged. -/
theorem primesLibGmp_negative_element (probab : Int → Nat → Int) :
    mpzSetUi (-1) = 18446744073709551615 ∧
    mpzSetUi (-59) = 18446744073709551557 ∧
    primesLibGmp probab [-59] 0 1 0
      = (if probab 18446744073709551557 15 > 0 then 1 else 0) ∧
    ∀ n : Int, 0 ≤ n → n < 2 ^ 63 → mpzSetUi n = n := by
  refine ⟨by decide, by decide, ?_, fun n h1 h2 => ?_⟩
  · have h59 : mpzSetUi (-59) = 18446744073709551557 := by decide
    have hown : owns 0 1 0 = true := by decide
    have hw : wrap32 (0 + 1) = 1 := by decide
    simp only [primesLibGmp, primesLibGmpLoop, h59, hown, hw, ACCURACY, if_true]
  · unfold mpzSetUi toUnsignedLong
    omega

/-! ## Miller-Rabin: the loops -/

/-- The loop `while (s % 2 == 0) s /= 2` on a positive value below `2 ^ fuel` stops with the
odd part of that value. -/
theorem halveLoop_spec : ∀ (fuel : Nat) (n : Int), 0 < n → n < 2 ^ fuel →
    ∃ s r : Nat, halveLoop fuel n = some (s : Int) ∧ s % 2 = 1 ∧ n = (s : Int) * 2 ^ r ∧
      r < fuel := by
  intro fuel
  induction fuel with
  | zero =>
    intro n h1 h2
    simp at h2
    omega
  | succ fuel ih =>
    intro n h1 h2
    rw [halveLoop]
    have hmod : Int.tmod n 2 = n % 2 := Int.tmod_eq_emod (by omega) (by omega)
    have hdiv : Int.tdiv n 2 = n / 2 := Int.tdiv_eq_ediv (by omega) (by omega)
    rw [hmod, hdiv]
    by_cases he : n % 2 = 0
    · rw [if_pos he]
      have h3 : n / 2 < 2 ^ fuel := by
        rw [pow_succ] at h2
        omega
      obtain ⟨s, r, hs, hodd, hn, hr⟩ := ih (n / 2) (by omega) h3
      refine ⟨s, r + 1, hs, hodd, ?_, by omega⟩
      have : n = 2 * (n / 2) := by omega
      rw [this, hn, pow_succ]
      ring
    · rw [if_neg he]
      refine ⟨n.toNat, 0, ?_, by omega, ?_, by omega⟩
      · rw [Int.toNat_of_nonneg (by omega)]
      · rw [Int.toNat_of_nonneg (by omega)]
        simp

/-- The squaring loop, entered with `temp = s * 2 ^ j` where `p - 1 = s * 2 ^ r`, stops within
`r - j` iterations; it ends with `mod = p - 1` exactly when one of `x, x^2, ..., x^(2^(r-j))`
is `p - 1` modulo `p`. -/
theorem squareLoop_spec (p : Int) (s r : Nat) (hp : 3 ≤ p) (hp2 : p ≤ 2 ^ 62) (hs : 0 < s)
    (hsr : p - 1 = (s : Int) * 2 ^ r) :
    ∀ (n j fuel : Nat) (x : Int), j + n = r → n < fuel → 0 ≤ x → x < p →
      ∃ m, squareLoop p fuel ((s : Int) * 2 ^ j) x = some m ∧
        (m = p - 1 ↔ ∃ i, i ≤ n ∧ x ^ (2 ^ i) % p = p - 1) := by
  intro n
  induction n with
  | zero =>
    intro j fuel x hj hf hx0 hxp
    obtain ⟨fuel, rfl⟩ : ∃ f, fuel = f + 1 := ⟨fuel - 1, by omega⟩
    have hjr : j = r := by omega
    subst hjr
    rw [squareLoop, if_neg (fun h => h.1 hsr.symm)]
    refine ⟨x, rfl, ?_⟩
    constructor
    · intro h
      refine ⟨0, le_refl 0, ?_⟩
      rw [pow_zero, pow_one, Int.emod_eq_of_lt hx0 hxp, h]
    · rintro ⟨i, hi, h⟩
      have : i = 0 := by omega
      subst this
      rwa [pow_zero, pow_one, Int.emod_eq_of_lt hx0 hxp] at h
  | succ n ih =>
    intro j fuel x hj hf hx0 hxp
    obtain ⟨fuel, rfl⟩ : ∃ f, fuel = f + 1 := ⟨fuel - 1, by omega⟩
    have hlt : (s : Int) * 2 ^ j < (s : Int) * 2 ^ r := by
      apply mul_lt_mul_of_pos_left _ (by exact_mod_cast hs)
      exact pow_lt_pow_right₀ (by norm_num) (by omega)
    have hdbl : (s : Int) * 2 ^ j * 2 = (s : Int) * 2 ^ (j + 1) := by
      rw [pow_succ]; ring
    have hle : (s : Int) * 2 ^ (j + 1) ≤ (s : Int) * 2 ^ r := by
      apply mul_le_mul_of_nonneg_left _ (by positivity)
      exact pow_le_pow_right₀ (by norm_num) (by omega)
    have hpos : (0 : Int) ≤ (s : Int) * 2 ^ (j + 1) := by positivity
    rw [squareLoop]
    by_cases hx1 : x = 1
    · rw [if_neg (fun h => h.2.1 hx1)]
      refine ⟨x, rfl, ?_⟩
      subst hx1
      constructor
      · intro h
        omega
      · rintro ⟨i, _, h⟩
        rw [one_pow, Int.emod_eq_of_lt (by omega) (by omega)] at h
        omega
    by_cases hxp1 : x = p - 1
    · rw [if_neg (fun h => h.2.2 hxp1)]
      refine ⟨x, rfl, ?_⟩
      constructor
      · intro _
        exact ⟨0, by omega, by rw [pow_zero, pow_one, Int.emod_eq_of_lt hx0 hxp, hxp1]⟩
      · intro _
        exact hxp1
    · rw [if_pos ⟨by omega, hx1, hxp1⟩, hdbl, wrap64_of_range (by omega) (by omega),
        mulmod_eq_emod hx0 (by omega) hp2, Int.toNat_of_nonneg hx0]
      obtain ⟨m, hm, hiff⟩ := ih (j + 1) fuel (x * x % p) (by omega) (by omega)
        (Int.emod_nonneg _ (by omega)) (Int.emod_lt_of_pos _ (by omega))
      refine ⟨m, hm, hiff.trans ?_⟩
      have hpow : ∀ i : Nat, (x * x % p) ^ (2 ^ i) % p = x ^ (2 ^ (i + 1)) % p := by
        intro i
        have h1 : (x * x % p) ^ (2 ^ i) ≡ (x * x) ^ (2 ^ i) [ZMOD p] :=
          Int.ModEq.pow _ (Int.mod_modEq _ _)
        rw [h1, ← pow_two, ← pow_mul, pow_succ']
      constructor
      · rintro ⟨i, hi, h⟩
        exact ⟨i + 1, by omega, by rw [← hpow]; exact h⟩
      · rintro ⟨i, hi, h⟩
        rcases Nat.eq_zero_or_pos i with rfl | hipos
        · rw [pow_zero, pow_one, Int.emod_eq_of_lt hx0 hxp] at h
          exact absurd h hxp1
        · obtain ⟨i, rfl⟩ : ∃ i2, i = i2 + 1 := ⟨i - 1, by omega⟩
          exact ⟨i, by omega, by rw [hpow]; exact h⟩

/-- One round of `isPrimeMillerRabin` in closed form: for `3 ≤ p ≤ 2^62` with
`p - 1 = s * 2 ^ r` and a non-negative witness, the round finishes and its verdict is
`roundPasses`. -/
theorem millerRabinRound_spec (p : Int) (s r : Nat) (hp : 3 ≤ p) (hp2 : p ≤ 2 ^ 62)
    (hs : 0 < s) (hr : r < loopFuel) (hsr : p - 1 = (s : Int) * 2 ^ r) (a : Int) (ha : 0 ≤ a) :
    ∃ b, millerRabinRound p (s : Int) a = some b ∧ (b = true ↔ roundPasses p s r a) := by
  unfold millerRabinRound roundPasses
  have hmod : modulo a (s : Int) p = a ^ s % p := by
    rw [modulo_eq ha (by omega) hp2, Int.toNat_natCast]
  simp only [hmod]
  have hx0 : 0 ≤ a ^ s % p := Int.emod_nonneg _ (by omega)
  have hxp : a ^ s % p < p := Int.emod_lt_of_pos _ (by omega)
  have hpow : ∀ i : Nat, (a ^ s % p) ^ (2 ^ i) % p = a ^ (s * 2 ^ i) % p := by
    intro i
    have h1 : (a ^ s % p) ^ (2 ^ i) ≡ (a ^ s) ^ (2 ^ i) [ZMOD p] :=
      Int.ModEq.pow _ (Int.mod_modEq _ _)
    rw [h1, ← pow_mul]
  by_cases h1 : a ^ s % p = 1 ∨ a ^ s % p = p - 1
  · rw [if_pos h1]
    refine ⟨true, rfl, ?_⟩
    simp only [true_iff]
    rcases h1 with h1 | h1
    · exact Or.inl h1
    · exact Or.inr ⟨0, Nat.zero_le _, by rw [pow_zero, mul_one]; exact h1⟩
  · rw [if_neg h1]
    obtain ⟨m, hm, hiff⟩ := squareLoop_spec p s r hp hp2 hs hsr r 0 loopFuel (a ^ s % p)
      (by omega) hr hx0 hxp
    rw [pow_zero, mul_one] at hm
    rw [hm]
    refine ⟨decide (m = p - 1), rfl, ?_⟩
    rw [decide_eq_true_iff, hiff]
    constructor
    · rintro ⟨i, hi, h⟩
      exact Or.inr ⟨i, hi, by rw [← hpow]; exact h⟩
    · rintro (h | ⟨i, hi, h⟩)
      · exact absurd (Or.inl h) h1
      · exact ⟨i, hi, by rw [hpow]; exact h⟩

/-- The value `rand() % (p - 1) + 1` lies in `[1, p - 1]` when `rand()` is non-negative and
`p ≥ 2`. -/
theorem witness_range {p v : Int} (hp : 2 ≤ p) (hv : 0 ≤ v) :
    1 ≤ Int.tmod v (p - 1) + 1 ∧ Int.tmod v (p - 1) + 1 ≤ p - 1 := by
  have h1 : 0 ≤ Int.tmod v (p - 1) := Int.tmod_nonneg _ hv
  have h2 : Int.tmod v (p - 1) < p - 1 := Int.tmod_lt_of_pos _ (by omega)
  omega

/-- The `for` loop of `isPrimeMillerRabin`, given the verdict `P` of a round in closed form:
it finishes, it returns true exactly when the next `n` witnesses all pass, and it then has
drawn `n` values. -/
theorem millerRabinRounds_spec (g : Nat → Int) (p s : Int) (P : Int → Prop) (hp : 2 ≤ p)
    (hround : ∀ a, 1 ≤ a → a ≤ p - 1 →
      ∃ b, millerRabinRound p s a = some b ∧ (b = true ↔ P a)) :
    ∀ (n k : Nat), (∀ i, i < n → 0 ≤ g (k + i)) →
      ∃ b k2, millerRabinRounds g p s n k = some (b, k2) ∧
      (b = true ↔ ∀ i, i < n → P (Int.tmod (g (k + i)) (p - 1) + 1)) ∧
      (b = true → k2 = k + n) := by
  intro n
  induction n with
  | zero =>
    intro k _
    exact ⟨true, k, rfl, by simp, fun _ => rfl⟩
  | succ n ih =>
    intro k hg
    have hg0 : 0 ≤ g k := hg 0 (Nat.succ_pos n)
    obtain ⟨h1, h2⟩ := witness_range hp hg0
    obtain ⟨b, hb, hiff⟩ := hround _ h1 h2
    rw [millerRabinRounds, hb]
    cases b with
    | false =>
      refine ⟨false, k + 1, rfl, ?_, fun h => absurd h (by simp)⟩
      simp only [Bool.false_eq_true, false_iff, not_forall]
      refine ⟨0, Nat.succ_pos n, fun h => ?_⟩
      exact absurd (hiff.mpr h) (by simp)
    | true =>
      obtain ⟨b2, k2, hrec, hiff2, hk2⟩ := ih (k + 1) (fun i hi => by
        have := hg (i + 1) (by omega)
        rwa [show k + (i + 1) = k + 1 + i by omega] at this)
      refine ⟨b2, k2, hrec, hiff2.trans ?_, fun h => by rw [hk2 h]; omega⟩
      constructor
      · intro h i hi
        rcases Nat.eq_zero_or_pos i with rfl | hpos
        · exact hiff.mp rfl
        · have := h (i - 1) (by omega)
          rwa [show k + 1 + (i - 1) = k + i by omega] at this
      · intro h i hi
        have := h (i + 1) (by omega)
        rwa [show k + (i + 1) = k + 1 + i by omega] at this

/-- The function `isPrimeMillerRabin` on an odd `p` with `3 ≤ p ≤ 2^62`, in closed form: with
`p - 1 = s * 2 ^ r`, `s` odd, it finishes, and it returns true exactly when the fifteen
witnesses it draws all pass the round test. -/
theorem isPrimeMillerRabin_spec (p : Int) (hp : 3 ≤ p) (hp2 : p ≤ 2 ^ 62) (hodd : p % 2 = 1) :
    ∃ s r : Nat, s % 2 = 1 ∧ p - 1 = (s : Int) * 2 ^ r ∧ r < loopFuel ∧
      halveLoop loopFuel (p - 1) = some (s : Int) ∧
      ∀ (g : Nat → Int) (k : Nat), (∀ i, i < ACCURACY → 0 ≤ g (k + i)) →
        ∃ b k2, isPrimeMillerRabin g k p = some (b, k2) ∧
          (b = true ↔ ∀ i, i < ACCURACY →
            roundPasses p s r (Int.tmod (g (k + i)) (p - 1) + 1)) ∧
          (b = true → k2 = k + ACCURACY) := by
  have hlt : p - 1 < 2 ^ loopFuel := by
    have : (2 : Int) ^ loopFuel = 2 ^ 64 := rfl
    omega
  obtain ⟨s, r, hs, hsodd, hsr, hr⟩ := halveLoop_spec loopFuel (p - 1) (by omega) hlt
  refine ⟨s, r, hsodd, hsr, hr, hs, fun g k hg => ?_⟩
  unfold isPrimeMillerRabin
  have htm : Int.tmod p 2 = p % 2 := Int.tmod_eq_emod (by omega) (by omega)
  rw [if_neg (by omega), if_neg (fun h => by omega), hs]
  exact millerRabinRounds_spec g p s (roundPasses p s r) (by omega)
    (fun a ha1 _ => millerRabinRound_spec p s r hp hp2 (by omega) hr hsr a (by omega))
    ACCURACY k hg

/-! ## Miller-Rabin: the round test modulo a prime -/

theorem emod_eq_one_iff (N : Nat) (hN : 3 ≤ N) (x : Int) :
    x % (N : Int) = 1 ↔ ((x : Int) : ZMod N) = 1 := by
  have h1 : (1 : ZMod N) = ((1 : Int) : ZMod N) := by rw [Int.cast_one]
  rw [h1, ZMod.intCast_eq_intCast_iff', Int.emod_eq_of_lt (a := 1) (by omega) (by omega)]

theorem emod_eq_pred_iff (N : Nat) (hN : 3 ≤ N) (x : Int) :
    x % (N : Int) = (N : Int) - 1 ↔ ((x : Int) : ZMod N) = -1 := by
  have h1 : (-1 : ZMod N) = ((-1 : Int) : ZMod N) := by rw [Int.cast_neg, Int.cast_one]
  have h2 : (-1 : Int) % (N : Int) = (N : Int) - 1 := by
    rw [show (-1 : Int) = ((N : Int) - 1) + (-1) * (N : Int) by ring, Int.add_mul_emod_self,
      Int.emod_eq_of_lt (by omega) (by omega)]
  rw [h1, ZMod.intCast_eq_intCast_iff', h2]

/-- The round test read in `ZMod N`. -/
theorem roundPasses_iff (N : Nat) (hN : 3 ≤ N) (s r : Nat) (a : Int) :
    roundPasses (N : Int) s r a ↔
      ((a : ZMod N) ^ s = 1 ∨ ∃ i, i ≤ r ∧ (a : ZMod N) ^ (s * 2 ^ i) = -1) := by
  unfold roundPasses
  rw [emod_eq_one_iff N hN, Int.cast_pow]
  simp only [emod_eq_pred_iff N hN, Int.cast_pow]

/-- In a domain, an element whose `2 ^ r`-th power is `1` is `1`, or one of its first `r`
iterated squares is `-1`. -/
theorem eq_one_or_exists_pow_eq_neg_one {K : Type} [CommRing K] [IsDomain K] :
    ∀ (r : Nat) (x : K), x ^ (2 ^ r) = 1 → x = 1 ∨ ∃ i, i < r ∧ x ^ (2 ^ i) = -1 := by
  intro r
  induction r with
  | zero =>
    intro x h
    left
    simpa using h
  | succ r ih =>
    intro x h
    rw [pow_succ', pow_mul] at h
    rcases ih (x ^ 2) h with h1 | ⟨i, hi, h1⟩
    · rw [pow_two] at h1
      rcases mul_self_eq_one_iff.mp h1 with h2 | h2
      · exact Or.inl h2
      · exact Or.inr ⟨0, Nat.succ_pos r, by rw [pow_zero, pow_one]; exact h2⟩
    · right
      exact ⟨i + 1, by omega, by rw [pow_succ', pow_mul]; exact h1⟩

/-- Modulo a prime every witness in `[1, p - 1]` passes the round test. -/
theorem roundPasses_of_prime (N : Nat) (hN : N.Prime) (hN3 : 3 ≤ N) (s r : Nat)
    (hsr : N - 1 = s * 2 ^ r) (a : Int) (ha1 : 1 ≤ a) (ha2 : a ≤ (N : Int) - 1) :
    roundPasses (N : Int) s r a := by
  haveI : Fact N.Prime := ⟨hN⟩
  rw [roundPasses_iff N hN3]
  have hne : (a : ZMod N) ≠ 0 := by
    rw [Ne, ZMod.intCast_zmod_eq_zero_iff_dvd]
    intro hdvd
    have := Int.le_of_dvd (by omega) hdvd
    omega
  have hfermat : ((a : ZMod N) ^ s) ^ (2 ^ r) = 1 := by
    rw [← pow_mul, ← hsr]
    exact ZMod.pow_card_sub_one_eq_one hne
  rcases eq_one_or_exists_pow_eq_neg_one r _ hfermat with h | ⟨i, hi, h⟩
  · exact Or.inl h
  · exact Or.inr ⟨i, by omega, by rw [pow_mul]; exact h⟩

theorem isPrimeMillerRabin_of_prime (g : Nat → Int) (k : Nat) (p : Int)
    (hprime : Nat.Prime p.toNat) (hp2 : p ≤ 2 ^ 62)
    (hg : ∀ i, i < ACCURACY → 0 ≤ g (k + i)) :
    isPrimeMillerRabin g k p = some (true, k + ACCURACY) := by
  have h2 := hprime.two_le
  have hpN : ((p.toNat : Nat) : Int) = p := Int.toNat_of_nonneg (by omega)
  rcases hprime.eq_two_or_odd with h | h
  · -- p = 2: the only witness is 1
    have hp : p = 2 := by omega
    subst hp
    have hround : ∀ a, 1 ≤ a → a ≤ (2 : Int) - 1 →
        ∃ b, millerRabinRound 2 1 a = some b ∧ (b = true ↔ True) := by
      intro a ha1 ha2
      have ha : a = 1 := by omega
      subst ha
      refine ⟨true, ?_, by simp⟩
      unfold millerRabinRound
      have : modulo 1 1 2 = 1 := by
        rw [modulo_eq (by decide) (by decide) (by decide)]
        decide
      simp [this]
    obtain ⟨b, k2, hres, hiff, hk2⟩ :=
      millerRabinRounds_spec g 2 1 (fun _ => True) (le_refl 2) hround ACCURACY k hg
    have hb : b = true := hiff.mpr (fun _ _ => trivial)
    have hhalve : halveLoop loopFuel (2 - 1) = some 1 := by decide
    unfold isPrimeMillerRabin
    rw [if_neg (by decide), if_neg (by decide), hhalve]
    simp only [hres, hb, hk2 hb]
  · have hp3 : 3 ≤ p := by omega
    obtain ⟨s, r, _, hsr, _, _, hspec⟩ := isPrimeMillerRabin_spec p hp3 hp2 (by omega)
    obtain ⟨b, k2, hres, hiff, hk2⟩ := hspec g k hg
    have hsrN : p.toNat - 1 = s * 2 ^ r := by
      have h3 : ((p.toNat - 1 : Nat) : Int) = ((s * 2 ^ r : Nat) : Int) := by
        push_cast
        rw [← hsr]
        omega
      exact_mod_cast h3
    have hb : b = true := by
      rw [hiff]
      intro i hi
      obtain ⟨h1, h2⟩ := witness_range (v := g (k + i)) (p := p) (by omega) (hg i hi)
      have := roundPasses_of_prime p.toNat hprime (by omega) s r hsrN _ h1 (by omega)
      rwa [hpN] at this
    rw [hres, hb, hk2 hb]

/-- C5: Miller-Rabin has no false negatives. For every prime `p` with `2 ≤ p ≤ 2^62` and every
fifteen non-negative values of `rand()`, `isPrimeMillerRabin(p)` returns true (after drawing
the fifteen values), as `isPrimeTrialDivision(p)` does; so a false verdict for `p ≤ 2^62`
means that `p` is not prime. -/
theorem isPrimeMillerRabin_no_false_negative (g : Nat → Int) (k : Nat) (p : Int)
    (hprime : Nat.Prime p.toNat) (hp2 : p ≤ 2 ^ 62)
    (hg : ∀ i, i < ACCURACY → 0 ≤ g (k + i)) :
    isPrimeMillerRabin g k p = some (true, k + ACCURACY) ∧
    isPrimeTrialDivision p = true := 
  ⟨isPrimeMillerRabin_of_prime g k p hprime hp2 hg,
    (isPrimeTrialDivision_eq_true_iff p).mpr hprime⟩

/-- Witness for `isPrimeMillerRabin_no_false_negative`: `p = 13`, `rand()` always `5`. -/
theorem isPrimeMillerRabin_no_false_negative_witness :
    Nat.Prime (13 : Int).toNat ∧ (13 : Int) ≤ 2 ^ 62 ∧
    isPrimeMillerRabin (fun _ => 5) 0 13 = some (true, 0 + ACCURACY) :=
  ⟨by rw [show Int.toNat 13 = 13 from rfl]; norm_num, by decide,
    (isPrimeMillerRabin_no_false_negative (fun _ => 5) 0 13
      (by rw [show Int.toNat 13 = 13 from rfl]; norm_num) (by decide)
      (fun _ _ => show (0 : Int) ≤ 5 by decide)).1⟩

/-! ## Counting by translates -/

/-- If the translates `c i * L` of a finite set all lie in `T` and are pairwise disjoint copies
of `L`, then `k * |L| ≤ |T|`. -/
theorem card_translates_le {R : Type} [CommRing R] [DecidableEq R] (k : Nat) (c : Fin k → R)
    (L T : Finset R) (hT : ∀ i, ∀ x ∈ L, c i * x ∈ T)
    (hinj : ∀ i j, ∀ x ∈ L, ∀ y ∈ L, c i * x = c j * y → i = j ∧ x = y) :
    k * L.card ≤ T.card := by
  have h := Finset.card_le_card_of_injOn (s := (Finset.univ : Finset (Fin k)) ×ˢ L) (t := T)
    (fun q => c q.1 * q.2)
    (fun q hq => by
      have hq2 := Finset.mem_product.mp (Finset.mem_coe.mp hq)
      exact Finset.mem_coe.mpr (hT q.1 q.2 hq2.2))
    (fun q hq q2 hq2 heq => by
      have h1 := Finset.mem_product.mp (Finset.mem_coe.mp hq)
      have h2 := Finset.mem_product.mp (Finset.mem_coe.mp hq2)
      obtain ⟨e1, e2⟩ := hinj q.1 q2.1 q.2 h1.2 q2.2 h2.2 heq
      exact Prod.ext e1 e2)
  rwa [Finset.card_product, Finset.card_univ, Fintype.card_fin] at h

/-- Translates by units whose `K`-th powers are pairwise different up to sign are disjoint
copies of any set of elements with `K`-th power `1` or `-1`. -/
theorem translates_disjoint {R : Type} [CommRing R] (k K : Nat) (c : Fin k → R)
    (L : Finset R) (hc : ∀ i, IsUnit (c i)) (hL : ∀ x ∈ L, x ^ K = 1 ∨ x ^ K = -1)
    (hsep : ∀ i j, i ≠ j → c i ^ K ≠ c j ^ K ∧ c i ^ K ≠ -(c j ^ K)) :
    ∀ i j, ∀ x ∈ L, ∀ y ∈ L, c i * x = c j * y → i = j ∧ x = y := by
  intro i j x hx y hy heq
  have hij : i = j := by
    by_contra hne
    obtain ⟨h1, h2⟩ := hsep i j hne
    have hpow : c i ^ K * x ^ K = c j ^ K * y ^ K := by
      rw [← mul_pow, ← mul_pow, heq]
    rcases hL x hx with hxK | hxK <;> rcases hL y hy with hyK | hyK <;>
      rw [hxK, hyK] at hpow
    · exact h1 (by simpa using hpow)
    · exact h2 (by simpa using hpow)
    · exact h2 (by
        have := congrArg Neg.neg hpow
        simpa using this)
    · exact h1 (by simpa using hpow)
  subst hij
  exact ⟨rfl, (hc i).mul_left_cancel heq⟩

/-- An element with a power equal to `1` or `-1` is a unit. -/
theorem isUnit_of_pow_eq_pm {R : Type} [CommRing R] {x : R} {K : Nat} (hK : K ≠ 0)
    (h : x ^ K = 1 ∨ x ^ K = -1) : IsUnit x := by
  have h2 : x ^ (2 * K) = 1 := by
    rw [mul_comm, pow_mul]
    rcases h with h | h <;> rw [h] <;> simp
  exact isUnit_ofPowEqOne h2 (by omega)

/-- Four translates inside the non-zero residues: with units `c`, `d` such that the `K`-th
powers of `1, c, d, c * d` are pairwise different up to sign, a set of elements with `K`-th
power `1` or `-1` has at most `(N - 1) / 4` elements. -/
theorem four_mul_card_le (N K : Nat) (hN : 1 < N) (hK : K ≠ 0) (L : Finset (ZMod N))
    (hL : ∀ x ∈ L, x ^ K = 1 ∨ x ^ K = -1) (c d : ZMod N) (hc : IsUnit c) (hd : IsUnit d)
    (h1 : ¬ (c ^ K = 1 ∨ c ^ K = -1)) (h2 : ¬ (d ^ K = 1 ∨ d ^ K = -1))
    (h3 : ¬ ((c * d) ^ K = 1 ∨ (c * d) ^ K = -1)) (h4 : c ^ K ≠ d ^ K)
    (h5 : c ^ K ≠ -(d ^ K)) : 4 * L.card ≤ N - 1 := by
  haveI : NeZero N := ⟨by omega⟩
  haveI : Fact (1 < N) := ⟨hN⟩
  have hcK : IsUnit (c ^ K) := hc.pow K
  have hdK : IsUnit (d ^ K) := hd.pow K
  have hcd : (c * d) ^ K = c ^ K * d ^ K := mul_pow c d K
  -- the six comparisons
  have p01 : (1 : ZMod N) ^ K ≠ c ^ K ∧ (1 : ZMod N) ^ K ≠ -(c ^ K) := by
    rw [one_pow]
    exact ⟨fun h => h1 (Or.inl h.symm), fun h => h1 (Or.inr (by rw [h, neg_neg]))⟩
  have p02 : (1 : ZMod N) ^ K ≠ d ^ K ∧ (1 : ZMod N) ^ K ≠ -(d ^ K) := by
    rw [one_pow]
    exact ⟨fun h => h2 (Or.inl h.symm), fun h => h2 (Or.inr (by rw [h, neg_neg]))⟩
  have p03 : (1 : ZMod N) ^ K ≠ (c * d) ^ K ∧ (1 : ZMod N) ^ K ≠ -((c * d) ^ K) := by
    rw [one_pow]
    exact ⟨fun h => h3 (Or.inl h.symm), fun h => h3 (Or.inr (by rw [h, neg_neg]))⟩
  have p12 : c ^ K ≠ d ^ K ∧ c ^ K ≠ -(d ^ K) := ⟨h4, h5⟩
  have p13 : c ^ K ≠ (c * d) ^ K ∧ c ^ K ≠ -((c * d) ^ K) := by
    rw [hcd]
    constructor
    · intro h
      apply h2
      left
      exact (hcK.mul_left_cancel (by rw [mul_one]; exact h)).symm
    · intro h
      apply h2
      right
      have : c ^ K * 1 = c ^ K * (-(d ^ K)) := by rw [mul_one, mul_neg]; exact h
      have := hcK.mul_left_cancel this
      rw [this, neg_neg]
  have p23 : d ^ K ≠ (c * d) ^ K ∧ d ^ K ≠ -((c * d) ^ K) := by
    rw [hcd]
    constructor
    · intro h
      apply h1
      left
      exact (hdK.mul_right_cancel (by rw [one_mul]; exact h)).symm
    · intro h
      apply h1
      right
      have : 1 * d ^ K = (-(c ^ K)) * d ^ K := by rw [one_mul, neg_mul]; exact h
      have := hdK.mul_right_cancel this
      rw [this, neg_neg]
  have flip : ∀ u v : ZMod N, (u ≠ v ∧ u ≠ -v) → (v ≠ u ∧ v ≠ -u) := by
    intro u v h
    exact ⟨fun e => h.1 e.symm, fun e => h.2 (by rw [e, neg_neg])⟩
  have hsep : ∀ i j : Fin 4, i ≠ j →
      (![1, c, d, c * d] i) ^ K ≠ (![1, c, d, c * d] j) ^ K ∧
      (![1, c, d, c * d] i) ^ K ≠ -((![1, c, d, c * d] j) ^ K) := by
    intro i j hij
    fin_cases i <;> fin_cases j <;> simp only [ne_eq, not_true_eq_false] at hij
    · exact p01
    · exact p02
    · exact p03
    · exact flip _ _ p01
    · exact p12
    · exact p13
    · exact flip _ _ p02
    · exact flip _ _ p12
    · exact p23
    · exact flip _ _ p03
    · exact flip _ _ p13
    · exact flip _ _ p23
  have hunits : ∀ i : Fin 4, IsUnit (![1, c, d, c * d] i) := by
    intro i
    fin_cases i
    · exact isUnit_one
    · exact hc
    · exact hd
    · exact hc.mul hd
  have hinj := translates_disjoint 4 K ![1, c, d, c * d] L hunits hL hsep
  have hT : ∀ i : Fin 4, ∀ x ∈ L, ![1, c, d, c * d] i * x ∈ (Finset.univ.erase (0 : ZMod N)) := by
    intro i x hx
    rw [Finset.mem_erase]
    exact ⟨((hunits i).mul (isUnit_of_pow_eq_pm hK (hL x hx))).ne_zero, Finset.mem_univ _⟩
  have h := card_translates_le 4 _ L _ hT hinj
  rwa [Finset.card_erase_of_mem (Finset.mem_univ _), Finset.card_univ, ZMod.card] at h

/-! ## An element of order `q` when `q * q` divides `N` -/

/-- For `q * q ∣ N`, the residue `e = N / q` has square zero, and `(1 + e) ^ n = 1 + n * e`. -/
theorem one_add_pow_of_sq_dvd (N q : Nat) (hqq : q * q ∣ N) (n : Nat) :
    (1 + ((N / q : Nat) : ZMod N)) ^ n = 1 + (n : ZMod N) * ((N / q : Nat) : ZMod N) := by
  have hq : q ∣ N := Dvd.dvd.trans (Dvd.intro _ rfl) hqq
  have hsq : ((N / q : Nat) : ZMod N) * ((N / q : Nat) : ZMod N) = 0 := by
    rw [← Nat.cast_mul, ZMod.natCast_zmod_eq_zero_iff_dvd]
    obtain ⟨t, ht⟩ := hqq
    rcases Nat.eq_zero_or_pos q with h0 | hpos
    · subst h0
      simp at ht
      subst ht
      simp
    · have h1 : N / q = q * t := by
        rw [ht, mul_assoc, Nat.mul_div_cancel_left _ hpos]
      rw [h1]
      exact ⟨t, by rw [ht]; ring⟩
  induction n with
  | zero => simp
  | succ n ih =>
    rw [pow_succ, ih]
    push_cast
    have : (1 + (n : ZMod N) * ((N / q : Nat) : ZMod N)) * (1 + ((N / q : Nat) : ZMod N))
        = 1 + ((n : ZMod N) + 1) * ((N / q : Nat) : ZMod N)
          + (n : ZMod N) * (((N / q : Nat) : ZMod N) * ((N / q : Nat) : ZMod N)) := by ring
    rw [this, hsq, mul_zero, add_zero]

/-- For a prime `q` with `q * q ∣ N`, the element `1 + N / q` of `ZMod N` has order `q`. -/
theorem one_add_pow_eq_one_iff (N q : Nat) (hN : 0 < N) (hqq : q * q ∣ N) (n : Nat) :
    (1 + ((N / q : Nat) : ZMod N)) ^ n = 1 ↔ q ∣ n := by
  have hq : q ∣ N := Dvd.dvd.trans (Dvd.intro _ rfl) hqq
  have hqpos : 0 < q := Nat.pos_of_dvd_of_pos hq hN
  have hdiv : 0 < N / q := Nat.div_pos (Nat.le_of_dvd hN hq) hqpos
  rw [one_add_pow_of_sq_dvd N q hqq n, add_right_eq_self, ← Nat.cast_mul,
    ZMod.natCast_zmod_eq_zero_iff_dvd]
  have hNq : N = q * (N / q) := (Nat.mul_div_cancel' hq).symm
  constructor
  · intro h
    rw [hNq] at h
    have h2 : q * (N / q) ∣ n * (N / q) := by
      rwa [Nat.mul_div_cancel_left _ hqpos] at h
    exact (Nat.mul_dvd_mul_iff_right hdiv).mp h2
  · rintro ⟨t, rfl⟩
    exact ⟨t, by nth_rewrite 2 [hNq]; ring⟩

/-- With `q` an odd prime and `q * q ∣ N`: if a power of `1 + N / q` is `1` or `-1`, the
exponent is a multiple of `q`. -/
theorem dvd_of_one_add_pow_eq_pm (N q : Nat) (hN : 0 < N) (hq : q.Prime) (hq2 : q ≠ 2)
    (hqq : q * q ∣ N) (n : Nat)
    (h : (1 + ((N / q : Nat) : ZMod N)) ^ n = 1 ∨ (1 + ((N / q : Nat) : ZMod N)) ^ n = -1) :
    q ∣ n := by
  have h2 : (1 + ((N / q : Nat) : ZMod N)) ^ (2 * n) = 1 := by
    rw [mul_comm, pow_mul]
    rcases h with h | h <;> rw [h] <;> simp
  have h3 := (one_add_pow_eq_one_iff N q hN hqq (2 * n)).mp h2
  rcases (Nat.Prime.dvd_mul hq).mp h3 with h4 | h4
  · exact absurd ((Nat.prime_dvd_prime_iff_eq hq Nat.prime_two).mp h4) hq2
  · exact h4

/-- A prime factor of `N` does not divide `m * (N - 1)` for `0 < m < q`. -/
theorem not_dvd_mul_pred (N q m : Nat) (hN : 1 < N) (hq : q.Prime) (hqN : q ∣ N)
    (hm : 0 < m) (hmq : m < q) : ¬ q ∣ m * (N - 1) := by
  intro h
  rcases (Nat.Prime.dvd_mul hq).mp h with h1 | h1
  · exact absurd (Nat.le_of_dvd hm h1) (by omega)
  · have h2 : q ∣ N - (N - 1) := Nat.dvd_sub' hqN h1
    rw [show N - (N - 1) = 1 by omega] at h2
    exact hq.one_lt.ne' (Nat.dvd_one.mp h2)

/-- The bound when the square of a prime `q ≥ 5` divides `N`. -/
theorem four_mul_card_le_of_sq_dvd (N q : Nat) (hN : 1 < N) (hq : q.Prime) (hq5 : 5 ≤ q)
    (hqq : q * q ∣ N) (L : Finset (ZMod N))
    (hL : ∀ x ∈ L, x ^ (N - 1) = 1 ∨ x ^ (N - 1) = -1) : 4 * L.card ≤ N - 1 := by
  have hqN : q ∣ N := Dvd.dvd.trans (Dvd.intro _ rfl) hqq
  have hq2 : q ≠ 2 := by omega
  have hpm : ∀ m, 0 < m → m < q →
      ¬ ((1 + ((N / q : Nat) : ZMod N)) ^ (m * (N - 1)) = 1 ∨
        (1 + ((N / q : Nat) : ZMod N)) ^ (m * (N - 1)) = -1) :=
    fun m hm hmq h => not_dvd_mul_pred N q m hN hq hqN hm hmq
      (dvd_of_one_add_pow_eq_pm N q (by omega) hq hq2 hqq _ h)
  have hunit : IsUnit (1 + ((N / q : Nat) : ZMod N)) :=
    isUnit_ofPowEqOne ((one_add_pow_eq_one_iff N q (by omega) hqq q).mpr dvd_rfl) hq.ne_zero
  set d := 1 + ((N / q : Nat) : ZMod N) with hd
  have hdK : IsUnit (d ^ (N - 1)) := hunit.pow _
  have e1 : d ^ (N - 1) = d ^ (1 * (N - 1)) := by rw [one_mul]
  have e2 : (d * d) ^ (N - 1) = d ^ (2 * (N - 1)) := by rw [← pow_two, ← pow_mul]
  have e3 : (d * (d * d)) ^ (N - 1) = d ^ (3 * (N - 1)) := by
    rw [← pow_two, ← pow_succ', ← pow_mul]
  have e4 : (d * d) ^ (N - 1) = d ^ (N - 1) * d ^ (N - 1) := mul_pow d d _
  refine four_mul_card_le N (N - 1) hN (by omega) L hL d (d * d) hunit (hunit.mul hunit)
    ?_ ?_ ?_ ?_ ?_
  · rw [e1]; exact hpm 1 (by omega) (by omega)
  · rw [e2]; exact hpm 2 (by omega) (by omega)
  · rw [e3]; exact hpm 3 (by omega) (by omega)
  · intro h
    rw [e4] at h
    have h1 : d ^ (N - 1) * 1 = d ^ (N - 1) * d ^ (N - 1) := by rw [mul_one]; exact h
    have h2 := hdK.mul_left_cancel h1
    exact hpm 1 (by omega) (by omega) (Or.inl (by rw [one_mul]; exact h2.symm))
  · intro h
    rw [e4] at h
    have h1 : d ^ (N - 1) * 1 = d ^ (N - 1) * (-(d ^ (N - 1))) := by
      rw [mul_one, mul_neg]; exact h
    have h2 := hdK.mul_left_cancel h1
    exact hpm 1 (by omega) (by omega) (Or.inr (by rw [one_mul, h2, neg_neg]))

/-! ## The case `9 ∣ N` -/

/-- For a multiple of three, `3 * φ(N) ≤ 2 * N`. -/
theorem three_mul_totient_le : ∀ N : Nat, 0 < N → 3 ∣ N → 3 * Nat.totient N ≤ 2 * N := by
  intro N
  induction N using Nat.strong_induction_on with
  | _ N ih =>
    rintro hN ⟨m, rfl⟩
    have hm : 0 < m := by omega
    by_cases h3 : 3 ∣ m
    · rw [Nat.totient_mul_of_prime_of_dvd Nat.prime_three h3]
      have := ih m (by omega) hm h3
      omega
    · rw [Nat.totient_mul_of_prime_of_not_dvd Nat.prime_three h3]
      have := Nat.totient_le m
      omega

/-- Three translates inside the units: with a unit `d` such that the `K`-th powers of
`1, d, d * d` are pairwise different up to sign, a set of elements with `K`-th power `1` or
`-1` has at most `φ(N) / 3` elements. -/
theorem three_mul_card_le (N K : Nat) (hN : 1 < N) (hK : K ≠ 0) (L : Finset (ZMod N))
    (hL : ∀ x ∈ L, x ^ K = 1 ∨ x ^ K = -1) (d : ZMod N) (hd : IsUnit d)
    (h1 : ¬ (d ^ K = 1 ∨ d ^ K = -1)) (h2 : ¬ ((d * d) ^ K = 1 ∨ (d * d) ^ K = -1)) :
    3 * L.card ≤ Nat.totient N := by
  haveI : NeZero N := ⟨by omega⟩
  have hdK : IsUnit (d ^ K) := hd.pow K
  have hdd : (d * d) ^ K = d ^ K * d ^ K := mul_pow d d K
  have p01 : (1 : ZMod N) ^ K ≠ d ^ K ∧ (1 : ZMod N) ^ K ≠ -(d ^ K) := by
    rw [one_pow]
    exact ⟨fun h => h1 (Or.inl h.symm), fun h => h1 (Or.inr (by rw [h, neg_neg]))⟩
  have p02 : (1 : ZMod N) ^ K ≠ (d * d) ^ K ∧ (1 : ZMod N) ^ K ≠ -((d * d) ^ K) := by
    rw [one_pow]
    exact ⟨fun h => h2 (Or.inl h.symm), fun h => h2 (Or.inr (by rw [h, neg_neg]))⟩
  have p12 : d ^ K ≠ (d * d) ^ K ∧ d ^ K ≠ -((d * d) ^ K) := by
    rw [hdd]
    constructor
    · intro h
      apply h1
      left
      exact (hdK.mul_left_cancel (by rw [mul_one]; exact h)).symm
    · intro h
      apply h1
      right
      have : d ^ K * 1 = d ^ K * (-(d ^ K)) := by rw [mul_one, mul_neg]; exact h
      have := hdK.mul_left_cancel this
      rw [this, neg_neg]
  have flip : ∀ u v : ZMod N, (u ≠ v ∧ u ≠ -v) → (v ≠ u ∧ v ≠ -u) := by
    intro u v h
    exact ⟨fun e => h.1 e.symm, fun e => h.2 (by rw [e, neg_neg])⟩
  have hsep : ∀ i j : Fin 3, i ≠ j →
      (![1, d, d * d] i) ^ K ≠ (![1, d, d * d] j) ^ K ∧
      (![1, d, d * d] i) ^ K ≠ -((![1, d, d * d] j) ^ K) := by
    intro i j hij
    fin_cases i <;> fin_cases j <;> simp only [ne_eq, not_true_eq_false] at hij
    · exact p01
    · exact p02
    · exact flip _ _ p01
    · exact p12
    · exact flip _ _ p02
    · exact flip _ _ p12
  have hunits : ∀ i : Fin 3, IsUnit (![1, d, d * d] i) := by
    intro i
    fin_cases i
    · exact isUnit_one
    · exact hd
    · exact hd.mul hd
  have hinj := translates_disjoint 3 K ![1, d, d * d] L hunits hL hsep
  have hT : ∀ i : Fin 3, ∀ x ∈ L, ![1, d, d * d] i * x ∈
      (Finset.univ.image (fun u : (ZMod N)ˣ => (u : ZMod N))) := by
    intro i x hx
    rw [Finset.mem_image]
    have hu := (hunits i).mul (isUnit_of_pow_eq_pm hK (hL x hx))
    exact ⟨hu.unit, Finset.mem_univ _, hu.unit_spec⟩
  have h := card_translates_le 3 _ L _ hT hinj
  rwa [Finset.card_image_of_injective _ Units.ext, Finset.card_univ,
    ZMod.card_units_eq_totient] at h

/-- The bound when `9` divides `N`. -/
theorem four_mul_card_le_of_nine_dvd (N : Nat) (hN : 1 < N) (h9 : 3 * 3 ∣ N)
    (L : Finset (ZMod N)) (hL : ∀ x ∈ L, x ^ (N - 1) = 1 ∨ x ^ (N - 1) = -1) :
    4 * L.card ≤ N - 1 := by
  have h3N : 3 ∣ N := Dvd.dvd.trans (Dvd.intro _ rfl) h9
  have hpm : ∀ m, 0 < m → m < 3 →
      ¬ ((1 + ((N / 3 : Nat) : ZMod N)) ^ (m * (N - 1)) = 1 ∨
        (1 + ((N / 3 : Nat) : ZMod N)) ^ (m * (N - 1)) = -1) :=
    fun m hm hmq h => not_dvd_mul_pred N 3 m hN Nat.prime_three h3N hm hmq
      (dvd_of_one_add_pow_eq_pm N 3 (by omega) Nat.prime_three (by decide) h9 _ h)
  have hunit : IsUnit (1 + ((N / 3 : Nat) : ZMod N)) :=
    isUnit_ofPowEqOne ((one_add_pow_eq_one_iff N 3 (by omega) h9 3).mpr dvd_rfl) (by decide)
  set d := 1 + ((N / 3 : Nat) : ZMod N) with hd
  have e1 : d ^ (N - 1) = d ^ (1 * (N - 1)) := by rw [one_mul]
  have e2 : (d * d) ^ (N - 1) = d ^ (2 * (N - 1)) := by rw [← pow_two, ← pow_mul]
  have h3 := three_mul_card_le N (N - 1) hN (by omega) L hL d hunit
    (by rw [e1]; exact hpm 1 (by omega) (by omega))
    (by rw [e2]; exact hpm 2 (by omega) (by omega))
  have h4 := three_mul_totient_le N (by omega) h3N
  have h5 : 9 ≤ N := Nat.le_of_dvd (by omega) h9
  omega

/-! ## Residues modulo coprime factors -/

/-- Chinese remainder, existence: for `N = n1 * n2` with coprime factors there is a residue
modulo `N` that agrees with `b` modulo every divisor of `n1` and is `1` modulo every divisor
of `n2`. -/
theorem exists_crt_lift (N n1 n2 : Nat) (hN : N = n1 * n2) (hN0 : 0 < N)
    (hco : Nat.Coprime n1 n2) (b : ZMod N) :
    ∃ c : ZMod N,
      (∀ (d : Nat) (h : d ∣ N), d ∣ n1 →
        ZMod.castHom h (ZMod d) c = ZMod.castHom h (ZMod d) b) ∧
      (∀ (d : Nat) (h : d ∣ N), d ∣ n2 → ZMod.castHom h (ZMod d) c = 1) := by
  haveI : NeZero N := ⟨by omega⟩
  obtain ⟨k, hk1, hk2⟩ := Nat.chineseRemainder hco b.val 1
  refine ⟨(k : ZMod N), fun d h hd => ?_, fun d h hd => ?_⟩
  · have hb : ZMod.castHom h (ZMod d) b = ((b.val : Nat) : ZMod d) := by
      conv_lhs => rw [← ZMod.natCast_zmod_val b]
      rw [map_natCast]
    rw [map_natCast, hb, ZMod.natCast_eq_natCast_iff]
    exact hk1.of_dvd hd
  · rw [map_natCast]
    have := (ZMod.natCast_eq_natCast_iff k 1 d).mpr (hk2.of_dvd hd)
    rwa [Nat.cast_one] at this

/-- Chinese remainder, uniqueness: residues modulo `N = n1 * n2`, with coprime factors, that
agree modulo `n1` and modulo `n2` are equal. -/
theorem eq_of_castHom_eq (N n1 n2 : Nat) (hN : N = n1 * n2) (hN0 : 0 < N)
    (hco : Nat.Coprime n1 n2) (h1 : n1 ∣ N) (h2 : n2 ∣ N) (x y : ZMod N)
    (e1 : ZMod.castHom h1 (ZMod n1) x = ZMod.castHom h1 (ZMod n1) y)
    (e2 : ZMod.castHom h2 (ZMod n2) x = ZMod.castHom h2 (ZMod n2) y) : x = y := by
  haveI : NeZero N := ⟨by omega⟩
  rw [← ZMod.natCast_zmod_val x, ← ZMod.natCast_zmod_val y] at e1 e2 ⊢
  rw [map_natCast, map_natCast, ZMod.natCast_eq_natCast_iff] at e1 e2
  rw [ZMod.natCast_eq_natCast_iff]
  exact ((Nat.modEq_and_modEq_iff_modEq_mul hco).mp ⟨e1, e2⟩).of_dvd (dvd_of_eq hN)

/-- In `ZMod n` with `n > 2`, `1` and `-1` are different. -/
theorem one_ne_neg_one (n : Nat) (hn : 2 < n) : (1 : ZMod n) ≠ -1 := by
  haveI : Fact (2 < n) := ⟨hn⟩
  exact fun h => ZMod.neg_one_ne_one h.symm

/-! ## Two further ingredients: no `-1` at the top exponent, primitive roots -/

theorem pow_two_mul_eq_one_of_pm {R : Type} [CommRing R] {u : R} {K : Nat}
    (h : u ^ K = 1 ∨ u ^ K = -1) : u ^ (2 * K) = 1 := by
  rw [mul_comm, pow_mul]
  rcases h with h | h <;> rw [h] <;> simp

/-- Four translates from a pair `c`, `d`: `c ^ K` is a square root of `1` other than `1` and
`-1`, and `d ^ (2 * K)` is not `1`. -/
theorem four_mul_card_le_of_pair (N K : Nat) (hN : 1 < N) (hK : K ≠ 0) (L : Finset (ZMod N))
    (hL : ∀ x ∈ L, x ^ K = 1 ∨ x ^ K = -1) (c d : ZMod N) (hd : IsUnit d)
    (hc2 : c ^ (2 * K) = 1) (hc : ¬ (c ^ K = 1 ∨ c ^ K = -1)) (hd2 : d ^ (2 * K) ≠ 1) :
    4 * L.card ≤ N - 1 := by
  have hcu : IsUnit c := isUnit_ofPowEqOne hc2 (by omega)
  have hsq : ∀ u : ZMod N, u ^ (2 * K) = u ^ K * u ^ K := by
    intro u
    rw [two_mul, pow_add]
  refine four_mul_card_le N K hN hK L hL c d hcu hd hc
    (fun h => hd2 (pow_two_mul_eq_one_of_pm h)) (fun h => ?_) (fun h => ?_) (fun h => ?_)
  · have h1 := pow_two_mul_eq_one_of_pm h
    rw [mul_pow, hc2, one_mul] at h1
    exact hd2 h1
  · apply hd2
    rw [hsq, ← h, ← hsq, hc2]
  · apply hd2
    have : d ^ K = -(c ^ K) := by rw [h, neg_neg]
    rw [hsq, this, neg_mul_neg, ← hsq, hc2]

/-- A number all of whose prime factors are `1` modulo `m` is `1` modulo `m`. -/
theorem modEq_one_of_prime_factors (m : Nat) : ∀ n : Nat, 0 < n →
    (∀ p : Nat, p.Prime → p ∣ n → p ≡ 1 [MOD m]) → n ≡ 1 [MOD m] := by
  intro n
  induction n using Nat.strong_induction_on with
  | _ n ih =>
    intro hn hp
    rcases Nat.lt_or_ge n 2 with h | h
    · have : n = 1 := by omega
      rw [this]
    · have hmin : n.minFac.Prime := Nat.minFac_prime (by omega)
      have hdvd : n.minFac ∣ n := Nat.minFac_dvd n
      obtain ⟨t, ht⟩ := hdvd
      have htpos : 0 < t := by
        rcases Nat.eq_zero_or_pos t with h0 | h0
        · rw [h0, mul_zero] at ht
          omega
        · exact h0
      have htlt : t < n := by
        have := hmin.two_le
        nlinarith
      have h1 := ih t htlt htpos (fun p hpp hpt => hp p hpp (by rw [ht]; exact hpt.mul_left _))
      have h2 := hp n.minFac hmin (Nat.minFac_dvd n)
      have h3 := Nat.ModEq.mul h2 h1
      rw [← ht, one_mul] at h3
      exact h3

/-- For an odd `N ≥ 3` with `N - 1 = s * 2 ^ r`, `s` odd, no residue has `-1` as its
`(N - 1)`-th power: the last squaring of the code never produces `N - 1`. -/
theorem pow_pred_ne_neg_one (N s r : Nat) (hN : 3 ≤ N) (hodd : N % 2 = 1) (hs : s % 2 = 1)
    (hsr : N - 1 = s * 2 ^ r) (x : ZMod N) : x ^ (s * 2 ^ r) ≠ -1 := by
  intro hx
  have hprime : ∀ p : Nat, p.Prime → p ∣ N → p ≡ 1 [MOD 2 ^ (r + 1)] := by
    intro p hp hpN
    haveI : Fact p.Prime := ⟨hp⟩
    haveI : Fact (Nat.Prime 2) := ⟨Nat.prime_two⟩
    have hp2 : 2 < p := by
      rcases hp.eq_two_or_odd with h | h
      · rw [h] at hpN
        omega
      · have := hp.two_le
        omega
    set y : ZMod p := (ZMod.castHom hpN (ZMod p) x) ^ s with hy
    have hy1 : y ^ 2 ^ r = -1 := by
      rw [hy, ← pow_mul, ← map_pow, hx, map_neg, map_one]
    have hy2 : ¬ y ^ 2 ^ r = 1 := by
      rw [hy1]
      exact fun h => one_ne_neg_one p hp2 h.symm
    have hy3 : y ^ 2 ^ (r + 1) = 1 := by
      rw [pow_succ, pow_mul, hy1]
      simp
    have hord : orderOf y = 2 ^ (r + 1) := orderOf_eq_prime_pow hy2 hy3
    have hy0 : y ≠ 0 := by
      intro h0
      rw [h0, zero_pow (by positivity)] at hy1
      have : (1 : ZMod p) = 0 := by
        have := congrArg Neg.neg hy1
        simpa using this.symm
      exact one_ne_zero this
    have hdvd : 2 ^ (r + 1) ∣ p - 1 := by
      rw [← hord]
      exact ZMod.orderOf_dvd_card_sub_one hy0
    exact ((Nat.modEq_iff_dvd' hp.one_lt.le).mpr hdvd).symm
  have hN1 := modEq_one_of_prime_factors (2 ^ (r + 1)) N (by omega) hprime
  have hdvd : 2 ^ (r + 1) ∣ N - 1 := (Nat.modEq_iff_dvd' (by omega)).mp hN1.symm
  rw [hsr, pow_succ, mul_comm (2 ^ r) 2] at hdvd
  have h2 : 2 ∣ s := (Nat.mul_dvd_mul_iff_right (by positivity)).mp hdvd
  omega

/-- Modulo a prime `q` there is a residue whose powers are `1` only at the multiples of
`q - 1`. -/
theorem exists_primitive_root (q : Nat) (hq : q.Prime) :
    ∃ g : ZMod q, g ≠ 0 ∧ ∀ n : Nat, g ^ n = 1 → q - 1 ∣ n := by
  haveI : Fact q.Prime := ⟨hq⟩
  obtain ⟨u, hu⟩ := IsCyclic.exists_generator (α := (ZMod q)ˣ)
  have hord : orderOf u = q - 1 := by
    rw [orderOf_eq_card_of_forall_mem_zpowers hu, Nat.card_eq_fintype_card, ZMod.card_units]
  refine ⟨(u : ZMod q), u.ne_zero, fun n hn => ?_⟩
  rw [← hord]
  apply orderOf_dvd_of_pow_eq_one
  apply Units.ext
  rw [Units.val_pow_eq_pow_val, hn, Units.val_one]

/-! ## Squarefree moduli -/

/-- The iterated squares of a passing residue: once `x ^ (s * 2 ^ i) = -1`, every later
`x ^ (s * 2 ^ j)` is `1` or `-1`. -/
theorem pow_eq_pm_of_le {R : Type} [CommRing R] (x : R) (s i j : Nat) (hij : i ≤ j)
    (h : x ^ (s * 2 ^ i) = -1) : x ^ (s * 2 ^ j) = 1 ∨ x ^ (s * 2 ^ j) = -1 := by
  obtain ⟨t, rfl⟩ : ∃ t, j = i + t := ⟨j - i, by omega⟩
  rw [pow_add, ← mul_assoc, pow_mul, h]
  rcases Nat.eq_zero_or_pos t with h0 | h0
  · right
    rw [h0]
    simp
  · left
    have : Even (2 ^ t) := (Nat.even_pow' (by omega)).mpr even_two
    exact this.neg_one_pow

/-- The largest exponent `s * 2 ^ i0`, `i0 ≤ r`, at which some residue reaches `-1`: every
passing residue has `1` or `-1` as its power at that exponent. -/
theorem exists_top_index (N s r : Nat) (hs : s % 2 = 1) :
    ∃ (i0 : Nat) (b : ZMod N), i0 ≤ r ∧ b ^ (s * 2 ^ i0) = -1 ∧
      ∀ x : ZMod N, (x ^ s = 1 ∨ ∃ i, i ≤ r ∧ x ^ (s * 2 ^ i) = -1) →
        (x ^ (s * 2 ^ i0) = 1 ∨ x ^ (s * 2 ^ i0) = -1) := by
  classical
  let P : Nat → Prop := fun i => ∃ x : ZMod N, x ^ (s * 2 ^ i) = -1
  have hP0 : P 0 := by
    refine ⟨-1, ?_⟩
    rw [pow_zero, mul_one]
    exact Odd.neg_one_pow (Nat.odd_iff.mpr hs)
  obtain ⟨b, hb⟩ : P (Nat.findGreatest P r) := Nat.findGreatest_spec (Nat.zero_le r) hP0
  refine ⟨Nat.findGreatest P r, b, Nat.findGreatest_le r, hb, fun x hx => ?_⟩
  rcases hx with h | ⟨i, hi, h⟩
  · left
    rw [pow_mul, h, one_pow]
  · exact pow_eq_pm_of_le x s i _ (Nat.le_findGreatest hi ⟨x, h⟩) h

/-- The bound for a product of three pairwise coprime factors, each larger than `2`. -/
theorem four_mul_card_le_of_three_factors (N p q m K : Nat) (hN : N = p * q * m)
    (hp : 2 < p) (hq : 2 < q) (hm : 2 < m) (hpq : Nat.Coprime p q) (hpm : Nat.Coprime p m)
    (hqm : Nat.Coprime q m) (hK : K ≠ 0) (b : ZMod N) (hb : b ^ K = -1)
    (L : Finset (ZMod N)) (hL : ∀ x ∈ L, x ^ K = 1 ∨ x ^ K = -1) : 4 * L.card ≤ N - 1 := by
  have hN0 : 0 < N := by rw [hN]; positivity
  have hN1 : 1 < N := by
    rw [hN]
    have : 1 < p * q := by nlinarith
    nlinarith
  have hpN : p ∣ N := ⟨q * m, by rw [hN]; ring⟩
  have hqN : q ∣ N := ⟨p * m, by rw [hN]; ring⟩
  have hmN : m ∣ N := ⟨p * q, by rw [hN]; ring⟩
  have hqmN : q * m ∣ N := ⟨p, by rw [hN]; ring⟩
  have hpmN : p * m ∣ N := ⟨q, by rw [hN]; ring⟩
  obtain ⟨c1, h11, h12⟩ := exists_crt_lift N p (q * m) (by rw [hN]; ring) hN0
    (Nat.Coprime.mul_right hpq hpm) b
  obtain ⟨c2, h21, h22⟩ := exists_crt_lift N q (p * m) (by rw [hN]; ring) hN0
    (Nat.Coprime.mul_right hpq.symm hqm) b
  -- the images of b ^ K
  have bp : (ZMod.castHom hpN (ZMod p) b) ^ K = -1 := by
    rw [← map_pow, hb, map_neg, map_one]
  have bq : (ZMod.castHom hqN (ZMod q) b) ^ K = -1 := by
    rw [← map_pow, hb, map_neg, map_one]
  -- the images of c1 ^ K and c2 ^ K
  have c1p : ZMod.castHom hpN (ZMod p) (c1 ^ K) = -1 := by
    rw [map_pow, h11 p hpN dvd_rfl, bp]
  have c1q : ZMod.castHom hqN (ZMod q) (c1 ^ K) = 1 := by
    rw [map_pow, h12 q hqN (Dvd.intro _ rfl), one_pow]
  have c1m : ZMod.castHom hmN (ZMod m) (c1 ^ K) = 1 := by
    rw [map_pow, h12 m hmN (Dvd.intro_left _ rfl), one_pow]
  have c1qm : ZMod.castHom hqmN (ZMod (q * m)) (c1 ^ K) = 1 := by
    rw [map_pow, h12 (q * m) hqmN dvd_rfl, one_pow]
  have c2q : ZMod.castHom hqN (ZMod q) (c2 ^ K) = -1 := by
    rw [map_pow, h21 q hqN dvd_rfl, bq]
  have c2p : ZMod.castHom hpN (ZMod p) (c2 ^ K) = 1 := by
    rw [map_pow, h22 p hpN (Dvd.intro _ rfl), one_pow]
  have c2m : ZMod.castHom hmN (ZMod m) (c2 ^ K) = 1 := by
    rw [map_pow, h22 m hmN (Dvd.intro_left _ rfl), one_pow]
  have c2pm : ZMod.castHom hpmN (ZMod (p * m)) (c2 ^ K) = 1 := by
    rw [map_pow, h22 (p * m) hpmN dvd_rfl, one_pow]
  -- both are units
  have hsq : ∀ u : ZMod N, u ^ (2 * K) = u ^ K * u ^ K := fun u => by rw [two_mul, pow_add]
  have hc1 : c1 ^ (2 * K) = 1 := by
    apply eq_of_castHom_eq N p (q * m) (by rw [hN]; ring) hN0 (Nat.Coprime.mul_right hpq hpm)
      hpN hqmN
    · rw [hsq, map_mul, c1p, map_one]
      simp
    · rw [hsq, map_mul, c1qm, map_one]
      simp
  have hc2 : c2 ^ (2 * K) = 1 := by
    apply eq_of_castHom_eq N q (p * m) (by rw [hN]; ring) hN0
      (Nat.Coprime.mul_right hpq.symm hqm) hqN hpmN
    · rw [hsq, map_mul, c2q, map_one]
      simp
    · rw [hsq, map_mul, c2pm, map_one]
      simp
  have hu1 : IsUnit c1 := isUnit_ofPowEqOne hc1 (by omega)
  have hu2 : IsUnit c2 := isUnit_ofPowEqOne hc2 (by omega)
  have np := one_ne_neg_one p hp
  have nq := one_ne_neg_one q hq
  have nm := one_ne_neg_one m hm
  refine four_mul_card_le N K hN1 hK L hL c1 c2 hu1 hu2 ?_ ?_ ?_ ?_ ?_
  · rintro (h | h)
    · rw [h, map_one] at c1p
      exact np c1p
    · rw [h, map_neg, map_one] at c1q
      exact nq c1q.symm
  · rintro (h | h)
    · rw [h, map_one] at c2q
      exact nq c2q
    · rw [h, map_neg, map_one] at c2p
      exact np c2p.symm
  · rw [mul_pow]
    rintro (h | h)
    · have := congrArg (ZMod.castHom hpN (ZMod p)) h
      rw [map_mul, c1p, c2p, map_one, mul_one] at this
      exact np this.symm
    · have := congrArg (ZMod.castHom hmN (ZMod m)) h
      rw [map_mul, c1m, c2m, map_neg, map_one, mul_one] at this
      exact nm this
  · intro h
    have := congrArg (ZMod.castHom hpN (ZMod p)) h
    rw [c1p, c2p] at this
    exact np this.symm
  · intro h
    have := congrArg (ZMod.castHom hmN (ZMod m)) h
    rw [map_neg, c1m, c2m] at this
    exact nm this

/-- The bound for a product of two distinct odd primes. -/
theorem four_mul_card_le_of_two_primes (N p q K : Nat) (hN : N = p * q) (hp : p.Prime)
    (hq : q.Prime) (hp2 : 2 < p) (hpq : p < q) (hK : K ≠ 0) (h2K : 2 * K ∣ N - 1)
    (b : ZMod N) (hb : b ^ K = -1)
    (L : Finset (ZMod N)) (hL : ∀ x ∈ L, x ^ K = 1 ∨ x ^ K = -1) : 4 * L.card ≤ N - 1 := by
  haveI : Fact q.Prime := ⟨hq⟩
  have hN0 : 0 < N := by rw [hN]; exact Nat.mul_pos hp.pos hq.pos
  have hN1 : 1 < N := by
    rw [hN]
    have := hq.two_le
    nlinarith
  have hco : Nat.Coprime p q := (Nat.coprime_primes hp hq).mpr (by omega)
  have hpN : p ∣ N := ⟨q, hN⟩
  have hqN : q ∣ N := ⟨p, by rw [hN]; ring⟩
  have hsq : ∀ u : ZMod N, u ^ (2 * K) = u ^ K * u ^ K := fun u => by rw [two_mul, pow_add]
  obtain ⟨g, hg0, hg⟩ := exists_primitive_root q hq
  obtain ⟨c, hc1, hc2⟩ := exists_crt_lift N p q hN hN0 hco b
  obtain ⟨d, hd1, hd2⟩ := exists_crt_lift N q p (by rw [hN]; ring) hN0 hco.symm
    ((g.val : Nat) : ZMod N)
  have hdq : ZMod.castHom hqN (ZMod q) d = g := by
    rw [hd1 q hqN dvd_rfl, map_natCast, ZMod.natCast_zmod_val]
  have hdp : ZMod.castHom hpN (ZMod p) d = 1 := hd2 p hpN dvd_rfl
  have cp : ZMod.castHom hpN (ZMod p) (c ^ K) = -1 := by
    rw [map_pow, hc1 p hpN dvd_rfl, ← map_pow, hb, map_neg, map_one]
  have cq : ZMod.castHom hqN (ZMod q) (c ^ K) = 1 := by
    rw [map_pow, hc2 q hqN dvd_rfl, one_pow]
  have hcc : c ^ (2 * K) = 1 := by
    apply eq_of_castHom_eq N p q hN hN0 hco hpN hqN
    · rw [hsq, map_mul, cp, map_one]
      simp
    · rw [hsq, map_mul, cq, map_one]
      simp
  have hdu : IsUnit d := by
    have : d ^ (q - 1) = 1 := by
      apply eq_of_castHom_eq N p q hN hN0 hco hpN hqN
      · rw [map_pow, hdp, one_pow, map_one]
      · rw [map_pow, hdq, map_one]
        exact ZMod.pow_card_sub_one_eq_one hg0
    exact isUnit_ofPowEqOne this (by have := hq.two_le; omega)
  refine four_mul_card_le_of_pair N K hN1 hK L hL c d hdu hcc ?_ ?_
  · rintro (h | h)
    · rw [h, map_one] at cp
      exact one_ne_neg_one p hp2 cp
    · rw [h, map_neg, map_one] at cq
      exact one_ne_neg_one q (by omega) cq.symm
  · intro h
    have h1 : g ^ (2 * K) = 1 := by
      rw [← hdq, ← map_pow, h, map_one]
    have h2 : q - 1 ∣ N - 1 := (hg _ h1).trans h2K
    have h3 : q - 1 ∣ p * (q - 1) := Dvd.intro_left _ rfl
    have h4 : N - 1 = p * (q - 1) + (p - 1) := by
      rw [hN]
      have hq1 : 1 ≤ q := hq.pos
      have hp1 : 1 ≤ p := hp.pos
      zify [hq1, hp1, Nat.one_le_iff_ne_zero.mpr (Nat.mul_ne_zero hp.ne_zero hq.ne_zero)]
      ring
    rw [h4] at h2
    have h5 : q - 1 ∣ p - 1 := (Nat.dvd_add_right h3).mp h2
    have := Nat.le_of_dvd (by omega) h5
    omega

/-- A number `n ≥ 2` is the product of its least prime factor and a positive cofactor. -/
theorem exists_least_prime_factor (n : Nat) (hn : 2 ≤ n) :
    ∃ p t : Nat, p.Prime ∧ n = p * t ∧ 0 < t ∧ ∀ q : Nat, 2 ≤ q → q ∣ n → p ≤ q := by
  obtain ⟨t, ht⟩ := Nat.minFac_dvd n
  refine ⟨n.minFac, t, Nat.minFac_prime (by omega), ht, ?_, fun q hq hqn =>
    Nat.minFac_le_of_dvd hq hqn⟩
  rcases Nat.eq_zero_or_pos t with h0 | h0
  · rw [h0, mul_zero] at ht
    omega
  · exact h0

/-- The Miller-Rabin bound in `ZMod N`: for an odd composite `N` with `N - 1 = s * 2 ^ r`,
`s` odd, any set of residues that pass the round test has at most `(N - 1) / 4` elements. -/
theorem four_mul_passing_le (N s r : Nat) (hN : 3 ≤ N) (hodd : N % 2 = 1)
    (hcomp : ¬ N.Prime) (hs : s % 2 = 1) (hsr : N - 1 = s * 2 ^ r) (L : Finset (ZMod N))
    (hL : ∀ x ∈ L, x ^ s = 1 ∨ ∃ i, i ≤ r ∧ x ^ (s * 2 ^ i) = -1) :
    4 * L.card ≤ N - 1 := by
  have hspos : 0 < s := by omega
  by_cases hsq : Squarefree N
  · obtain ⟨i0, b, hi0, hb, htop⟩ := exists_top_index N s r hs
    have hK : s * 2 ^ i0 ≠ 0 := by positivity
    have hLK : ∀ x ∈ L, x ^ (s * 2 ^ i0) = 1 ∨ x ^ (s * 2 ^ i0) = -1 :=
      fun x hx => htop x (hL x hx)
    obtain ⟨p, n1, hpp, hn1, hn1pos, hpmin⟩ := exists_least_prime_factor N (by omega)
    have hp2 : 2 < p := by
      rcases hpp.eq_two_or_odd with h | h
      · have : 2 ∣ N := ⟨n1, by rw [hn1, h]⟩
        omega
      · have := hpp.two_le
        omega
    have hn1ne : n1 ≠ 1 := by
      intro h
      rw [h, mul_one] at hn1
      exact hcomp (hn1 ▸ hpp)
    have hn1odd : n1 % 2 = 1 := by
      rcases Nat.mod_two_eq_zero_or_one n1 with h | h
      · have : 2 ∣ N := by
          rw [hn1]
          exact (Nat.dvd_of_mod_eq_zero h).mul_left _
        omega
      · exact h
    rw [hn1] at hsq
    obtain ⟨hco, _, hsq1⟩ := Nat.squarefree_mul_iff.mp hsq
    by_cases hn1p : n1.Prime
    · -- two primes
      have hle : p ≤ n1 := hpmin n1 hn1p.two_le ⟨p, by rw [hn1]; ring⟩
      have hne : p ≠ n1 := fun h => by
        rw [← h] at hco
        exact hpp.one_lt.ne' ((Nat.coprime_self _).mp hco)
      have hir : i0 ≠ r := fun h => pow_pred_ne_neg_one N s r hN hodd hs hsr b (h ▸ hb)
      have h2K : 2 * (s * 2 ^ i0) ∣ N - 1 := by
        rw [hsr]
        obtain ⟨t, rfl⟩ : ∃ t, r = i0 + 1 + t := ⟨r - (i0 + 1), by omega⟩
        exact ⟨2 ^ t, by rw [pow_add, pow_succ]; ring⟩
      exact four_mul_card_le_of_two_primes N p n1 (s * 2 ^ i0) hn1 hpp hn1p hp2
        (by omega) hK h2K b hb L hLK
    · -- at least three prime factors
      obtain ⟨q, m, hqp, hm, hmpos, _⟩ := exists_least_prime_factor n1 (by omega)
      have hq2 : 2 < q := by
        rcases hqp.eq_two_or_odd with h | h
        · have : 2 ∣ n1 := ⟨m, by rw [hm, h]⟩
          omega
        · have := hqp.two_le
          omega
      have hmne : m ≠ 1 := by
        intro h
        rw [h, mul_one] at hm
        exact hn1p (hm ▸ hqp)
      have hmodd : m % 2 = 1 := by
        rcases Nat.mod_two_eq_zero_or_one m with h | h
        · have : 2 ∣ n1 := by
            rw [hm]
            exact (Nat.dvd_of_mod_eq_zero h).mul_left _
          omega
        · exact h
      rw [hm] at hsq1 hco
      obtain ⟨hco2, _, _⟩ := Nat.squarefree_mul_iff.mp hsq1
      exact four_mul_card_le_of_three_factors N p q m (s * 2 ^ i0)
        (by rw [hn1, hm]; ring) hp2 hq2 (by omega) hco.coprime_mul_right_right
        hco.coprime_mul_left_right hco2 hK b hb L hLK
  · -- the square of a prime divides N
    have hLK : ∀ x ∈ L, x ^ (N - 1) = 1 ∨ x ^ (N - 1) = -1 := by
      intro x hx
      rw [hsr]
      rcases hL x hx with h | ⟨i, hi, h⟩
      · left
        rw [pow_mul, h, one_pow]
      · exact pow_eq_pm_of_le x s i r hi h
    rw [Nat.squarefree_iff_prime_squarefree] at hsq
    push_neg at hsq
    obtain ⟨q, hq, hqq⟩ := hsq
    have hqN : q ∣ N := Dvd.dvd.trans (Dvd.intro _ rfl) hqq
    have hq2 : q ≠ 2 := by
      intro h
      rw [h] at hqN
      omega
    have hq3 : 3 ≤ q := by
      have := hq.two_le
      omega
    rcases Nat.lt_or_ge q 5 with h5 | h5
    · have hq4 : q ≠ 4 := by
        intro h
        rw [h] at hq
        exact absurd hq (by norm_num)
      have : q = 3 := by omega
      subst this
      exact four_mul_card_le_of_nine_dvd N (by omega) hqq L hLK
    · exact four_mul_card_le_of_sq_dvd N q (by omega) hq h5 hqq L hLK

/-! ## The false-positive bound for the code -/

/-- The bound on passing witnesses, for witnesses given as natural numbers in `[1, N - 1]`. -/
theorem four_mul_card_witnesses_le (N s r : Nat) (hN : 3 ≤ N) (hodd : N % 2 = 1)
    (hcomp : ¬ N.Prime) (hs : s % 2 = 1) (hsr : N - 1 = s * 2 ^ r) (A : Finset Nat)
    (hA : ∀ a ∈ A, 1 ≤ a ∧ a ≤ N - 1 ∧ roundPasses (N : Int) s r (a : Int)) :
    4 * A.card ≤ N - 1 := by
  have hinj : Set.InjOn (fun a : Nat => (a : ZMod N)) (A : Set Nat) := by
    intro a ha a2 ha2 h
    have h1 := (hA a (Finset.mem_coe.mp ha)).2.1
    have h2 := (hA a2 (Finset.mem_coe.mp ha2)).2.1
    have h3 := (ZMod.natCast_eq_natCast_iff a a2 N).mp h
    unfold Nat.ModEq at h3
    rwa [Nat.mod_eq_of_lt (by omega), Nat.mod_eq_of_lt (by omega)] at h3
  have hcard : (A.image (fun a : Nat => (a : ZMod N))).card = A.card :=
    Finset.card_image_of_injOn hinj
  rw [← hcard]
  apply four_mul_passing_le N s r hN hodd hcomp hs hsr
  intro x hx
  obtain ⟨a, ha, rfl⟩ := Finset.mem_image.mp hx
  have := (roundPasses_iff N hN s r (a : Int)).mp (hA a ha).2.2
  rwa [Int.cast_natCast] at this

/-- For an odd composite `p` with `p ≤ 2^62`: the odd part `s` and the exponent `r` of
`p - 1` that the code works with, the closed form of a run on a tuple of witnesses, of a
single round, and the bound on the number of passing witnesses. -/
theorem isPrimeMillerRabin_composite (p : Int) (hp3 : 3 ≤ p) (hp2 : p ≤ 2 ^ 62)
    (hodd : p % 2 = 1) (hcomp : ¬ Nat.Prime p.toNat) :
    ∃ s r : Nat,
      (∀ t : Fin ACCURACY → Fin (p.toNat - 1),
        isPrimeMillerRabin (witnessStream (p.toNat - 1) t) 0 p = some (true, ACCURACY) ↔
          ∀ i : Fin ACCURACY, roundPasses p s r ((((t i : Fin (p.toNat - 1)) : Nat) : Int) + 1)) ∧
      (∀ a : Int, 0 ≤ a → (roundAccepts p a = true ↔ roundPasses p s r a)) ∧
      (∀ A : Finset Nat, (∀ a ∈ A, 1 ≤ a ∧ a ≤ p.toNat - 1 ∧ roundPasses p s r (a : Int)) →
        4 * A.card ≤ p.toNat - 1) := by
  obtain ⟨s, r, hs, hsr, hr, hhalve, hspec⟩ := isPrimeMillerRabin_spec p hp3 hp2 hodd
  have hpN : ((p.toNat : Nat) : Int) = p := Int.toNat_of_nonneg (by omega)
  have hspos : 0 < s := by omega
  refine ⟨s, r, fun t => ?_, fun a ha => ?_, fun A hA => ?_⟩
  · have hg : ∀ i, i < ACCURACY → 0 ≤ witnessStream (p.toNat - 1) t (0 + i) := by
      intro i hi
      unfold witnessStream
      rw [Nat.zero_add, dif_pos hi]
      exact Int.natCast_nonneg _
    obtain ⟨b, k2, hres, hiff, hk2⟩ := hspec _ 0 hg
    have hwit : ∀ i : Fin ACCURACY,
        Int.tmod (witnessStream (p.toNat - 1) t (0 + (i : Nat))) (p - 1) + 1
          = (((t i : Fin (p.toNat - 1)) : Nat) : Int) + 1 := by
      intro i
      unfold witnessStream
      rw [Nat.zero_add, dif_pos i.isLt]
      have hlt : ((t i : Fin (p.toNat - 1)) : Nat) < p.toNat - 1 := (t i).isLt
      rw [Int.tmod_eq_emod (Int.natCast_nonneg _) (by omega),
        Int.emod_eq_of_lt (Int.natCast_nonneg _) (by omega)]
    rw [hres]
    constructor
    · intro h
      have hb : b = true := by
        have := congrArg (fun o => o.map Prod.fst) h
        simpa using this
      intro i
      have := hiff.mp hb (i : Nat) i.isLt
      rwa [hwit i] at this
    · intro h
      have hb : b = true := by
        rw [hiff]
        intro i hi
        have := h ⟨i, hi⟩
        rwa [← hwit ⟨i, hi⟩] at this
      rw [hb, hk2 hb, Nat.zero_add]
  · obtain ⟨b, hb, hiff⟩ := millerRabinRound_spec p s r hp3 hp2 hspos hr hsr a ha
    unfold roundAccepts
    rw [hhalve]
    simp only [hb]
    rw [← hiff]
    cases b <;> simp
  · have hsrN : p.toNat - 1 = s * 2 ^ r := by
      have h3 : ((p.toNat - 1 : Nat) : Int) = ((s * 2 ^ r : Nat) : Int) := by
        push_cast
        rw [← hsr]
        omega
      exact_mod_cast h3
    refine four_mul_card_witnesses_le p.toNat s r (by omega) (by omega) hcomp hs hsrN A ?_
    intro a ha
    obtain ⟨h1, h2, h3⟩ := hA a ha
    exact ⟨h1, h2, by rw [hpN]; exact h3⟩

/-- C10: the false-positive bound in counting form. For every composite `p` with
`4 ≤ p ≤ 2^62`, the tuples of fifteen witnesses from `[1, p - 1]` on which
`isPrimeMillerRabin(p)` returns true are at most a fraction `4^(-15)` of all `(p - 1)^15`
tuples. For odd `p` at most `(p - 1) / 4` of the witnesses in `[1, p - 1]` make a single
round pass; an even `p` is rejected before any round is run, so no tuple is accepted. -/
theorem isPrimeMillerRabin_false_positive_bound (p : Int) (hp4 : 4 ≤ p) (hp2 : p ≤ 2 ^ 62)
    (hcomp : ¬ Nat.Prime p.toNat) :
    4 ^ ACCURACY * (acceptedTuples p).card
      ≤ Fintype.card (Fin ACCURACY → Fin (p.toNat - 1)) ∧
    Fintype.card (Fin ACCURACY → Fin (p.toNat - 1)) = (p.toNat - 1) ^ ACCURACY ∧
    (p % 2 = 1 → 4 * (passingWitnesses p).card ≤ p.toNat - 1) ∧
    (p % 2 = 0 → acceptedTuples p = ∅) := by
  classical
  have hcardall : Fintype.card (Fin ACCURACY → Fin (p.toNat - 1)) = (p.toNat - 1) ^ ACCURACY := by
    rw [Fintype.card_fun, Fintype.card_fin, Fintype.card_fin]
  have hempty : p % 2 = 0 → acceptedTuples p = ∅ := by
    intro heven
    unfold acceptedTuples
    rw [Finset.filter_eq_empty_iff]
    intro t _
    rw [isPrimeMillerRabin_small_or_even_aux _ 0 p
      (Or.inr ⟨Int.dvd_of_emod_eq_zero heven, by omega⟩)]
    simp [ACCURACY]
  refine ⟨?_, hcardall, fun hodd => ?_, hempty⟩
  · rw [hcardall]
    rcases Int.emod_two_eq_zero_or_one p with heven | hodd
    · rw [hempty heven]
      simp
    · obtain ⟨s, r, htuple, _, hbound⟩ := isPrimeMillerRabin_composite p (by omega) hp2 hodd hcomp
      set S : Finset (Fin (p.toNat - 1)) :=
        Finset.univ.filter (fun v => roundPasses p s r (((v : Nat) : Int) + 1)) with hS
      have hacc : acceptedTuples p = Fintype.piFinset (fun _ : Fin ACCURACY => S) := by
        ext t
        unfold acceptedTuples
        rw [Finset.mem_filter, Fintype.mem_piFinset, htuple t]
        simp only [Finset.mem_univ, true_and, hS, Finset.mem_filter]
      have hSA : 4 * S.card ≤ p.toNat - 1 := by
        have hinj : Function.Injective (fun v : Fin (p.toNat - 1) => (v : Nat) + 1) :=
          fun v w h => Fin.ext (by simpa using h)
        rw [← Finset.card_image_of_injective S hinj]
        apply hbound
        intro a ha
        obtain ⟨v, hv, rfl⟩ := Finset.mem_image.mp ha
        have hvlt : (v : Nat) < p.toNat - 1 := v.isLt
        refine ⟨by omega, by omega, ?_⟩
        have := (Finset.mem_filter.mp hv).2
        push_cast
        exact this
      rw [hacc, Fintype.card_piFinset_const, ← mul_pow]
      exact Nat.pow_le_pow_left hSA _
  · obtain ⟨s, r, _, hround, hbound⟩ := isPrimeMillerRabin_composite p (by omega) hp2 hodd hcomp
    apply hbound
    intro a ha
    unfold passingWitnesses at ha
    obtain ⟨h1, h2⟩ := Finset.mem_filter.mp ha
    rw [Finset.mem_Icc] at h1
    exact ⟨h1.1, h1.2, (hround _ (Int.natCast_nonneg a)).mp h2⟩

/-- Witness for `isPrimeMillerRabin_false_positive_bound`: `p = 9`. -/
theorem isPrimeMillerRabin_false_positive_bound_witness :
    (4 : Int) ≤ 9 ∧ (9 : Int) ≤ 2 ^ 62 ∧ ¬ Nat.Prime (9 : Int).toNat ∧
    4 ^ ACCURACY * (acceptedTuples 9).card
      ≤ Fintype.card (Fin ACCURACY → Fin ((9 : Int).toNat - 1)) :=
  ⟨by decide, by decide, by rw [show Int.toNat 9 = 9 from rfl]; norm_num,
    (isPrimeMillerRabin_false_positive_bound 9 (by decide) (by decide)
      (by rw [show Int.toNat 9 = 9 from rfl]; norm_num)).1⟩

/-! ## `mulmod`: the intermediate values -/

/-- On reduced non-negative operands and a modulus of at most `2^62`, every value in the trace
of the loop of `mulmod` lies in `[0, 2^63)`. -/
theorem mulmodLoopTrace_range (m : Int) (hm : 0 < m) (hm2 : m ≤ 2 ^ 62) :
    ∀ (k : Nat) (x y b : Int), b.toNat = k → 0 ≤ x → x < m → 0 ≤ y → y < m →
      ∀ v ∈ mulmodLoopTrace m x y b, 0 ≤ v ∧ v < 2 ^ 63 := by
  intro k
  induction k using Nat.strong_induction_on with
  | _ k ih =>
    intro x y b hk hx0 hxm hy0 hym v hv
    rw [mulmodLoopTrace] at hv
    by_cases hb : b > 0
    · rw [if_pos hb] at hv
      have hdiv : Int.tdiv b 2 = b / 2 := Int.tdiv_eq_ediv (by omega) (by omega)
      have hw1 : wrap64 (x + y) = x + y := wrap64_of_range (by omega) (by omega)
      have hw2 : wrap64 (y * 2) = y * 2 := wrap64_of_range (by omega) (by omega)
      have hy2 : 0 ≤ Int.tmod (y * 2) m ∧ Int.tmod (y * 2) m < m :=
        ⟨Int.tmod_nonneg _ (by omega), Int.tmod_lt_of_pos _ hm⟩
      have hxy : 0 ≤ Int.tmod (x + y) m ∧ Int.tmod (x + y) m < m :=
        ⟨Int.tmod_nonneg _ (by omega), Int.tmod_lt_of_pos _ hm⟩
      rw [hw1, hw2] at hv
      simp only [List.mem_cons, List.mem_append] at hv
      rcases hv with rfl | rfl | hv | rfl | hv
      · omega
      · omega
      · by_cases hodd : Int.tmod b 2 = 1
        · rw [if_pos hodd, List.mem_singleton] at hv
          omega
        · rw [if_neg hodd] at hv
          exact absurd hv (List.not_mem_nil _)
      · omega
      · by_cases hodd : Int.tmod b 2 = 1
        · rw [if_pos hodd] at hv
          exact ih (b / 2).toNat (by omega) _ _ _ (by rw [hdiv]) hxy.1 hxy.2 hy2.1 hy2.2 v hv
        · rw [if_neg hodd] at hv
          exact ih (b / 2).toNat (by omega) _ _ _ (by rw [hdiv]) hx0 hxm hy2.1 hy2.2 v hv
    · rw [if_neg hb] at hv
      simp only [List.mem_cons, List.mem_singleton, List.not_mem_nil, or_false] at hv
      rcases hv with rfl | rfl <;> omega

/-- On reduced non-negative operands and a modulus of at most `2^62`, the 64-bit loop of
`mulmod` and the loop in unbounded integers return the same value. -/
theorem mulmodLoop_eq_exact (m : Int) (hm : 0 < m) (hm2 : m ≤ 2 ^ 62) :
    ∀ (k : Nat) (x y b : Int), b.toNat = k → 0 ≤ x → x < m → 0 ≤ y → y < m →
      mulmodLoop m x y b = mulmodLoopExact m x y b := by
  intro k
  induction k using Nat.strong_induction_on with
  | _ k ih =>
    intro x y b hk hx0 hxm hy0 hym
    rw [mulmodLoop, mulmodLoopExact]
    by_cases hb : b > 0
    · rw [if_pos hb, if_pos hb]
      have hdiv : Int.tdiv b 2 = b / 2 := Int.tdiv_eq_ediv (by omega) (by omega)
      have hw1 : wrap64 (x + y) = x + y := wrap64_of_range (by omega) (by omega)
      have hw2 : wrap64 (y * 2) = y * 2 := wrap64_of_range (by omega) (by omega)
      have hy2 : 0 ≤ Int.tmod (y * 2) m ∧ Int.tmod (y * 2) m < m :=
        ⟨Int.tmod_nonneg _ (by omega), Int.tmod_lt_of_pos _ hm⟩
      have hxy : 0 ≤ Int.tmod (x + y) m ∧ Int.tmod (x + y) m < m :=
        ⟨Int.tmod_nonneg _ (by omega), Int.tmod_lt_of_pos _ hm⟩
      rw [hw1, hw2]
      by_cases hodd : Int.tmod b 2 = 1
      · rw [if_pos hodd]
        exact ih (b / 2).toNat (by omega) _ _ _ (by rw [hdiv]) hxy.1 hxy.2 hy2.1 hy2.2
      · rw [if_neg hodd]
        exact ih (b / 2).toNat (by omega) _ _ _ (by rw [hdiv]) hx0 hxm hy2.1 hy2.2
    · rw [if_neg hb, if_neg hb]

/-- C14: for non-negative `a`, `b` and `0 < m ≤ 2^62`, every intermediate value of
`mulmod(a, b, m)` (each `x`, `y`, `x + y` and `y * 2`) lies in `[0, 2^63)`, the 64-bit
computation coincides with the computation in unbounded integers, and the result is
`(a * b) mod m`, in `[0, m)`. -/
theorem mulmod_intermediates_in_range (a b m : Int) (ha : 0 ≤ a) (hb : 0 ≤ b) (hm : 0 < m)
    (hm2 : m ≤ 2 ^ 62) :
    (∀ v ∈ mulmodTrace a b m, 0 ≤ v ∧ v < 2 ^ 63) ∧
    mulmod a b m = mulmodExact a b m ∧
    mulmod a b m = (a * b) % m ∧
    0 ≤ mulmod a b m ∧ mulmod a b m < m := by
  have hy0 : 0 ≤ Int.tmod a m := Int.tmod_nonneg _ ha
  have hym : Int.tmod a m < m := Int.tmod_lt_of_pos _ hm
  have hval : mulmod a b m = (a * b) % m := by
    rw [mulmod_eq_emod ha hm hm2, Int.toNat_of_nonneg hb]
  refine ⟨?_, ?_, hval, ?_, ?_⟩
  · exact mulmodLoopTrace_range m hm hm2 _ 0 _ b rfl (le_refl 0) hm hy0 hym
  · unfold mulmod mulmodExact
    rw [mulmodLoop_eq_exact m hm hm2 _ 0 _ b rfl (le_refl 0) hm hy0 hym]
  · rw [hval]
    exact Int.emod_nonneg _ (by omega)
  · rw [hval]
    exact Int.emod_lt_of_pos _ hm

/-- Witness for `mulmod_intermediates_in_range`: `a = 2^62 - 1`, `b = 3`, `m = 2^62`. -/
theorem mulmod_intermediates_in_range_witness :
    (0 : Int) ≤ 2 ^ 62 - 1 ∧ (0 : Int) ≤ 3 ∧ (0 : Int) < 2 ^ 62 ∧ (2 : Int) ^ 62 ≤ 2 ^ 62 ∧
    mulmod (2 ^ 62 - 1) 3 (2 ^ 62) = ((2 ^ 62 - 1) * 3) % 2 ^ 62 :=
  ⟨by decide, by decide, by decide, by decide,
    (mulmod_intermediates_in_range (2 ^ 62 - 1) 3 (2 ^ 62) (by decide) (by decide) (by decide)
      (by decide)).2.2.1⟩

/-! ## Termination of `isPrimeMillerRabin` -/

/-- The squaring loop, entered with `temp = s * 2 ^ j` where `p - 1 = s * 2 ^ r`, stops within
`r - j` iterations whatever the values of `mod`: `temp` doubles without leaving the 64-bit
range until it is `p - 1`. One unit of fuel pays for one test of the loop condition. -/
theorem squareLoop_terminates (p : Int) (s r : Nat) (hp : p < 2 ^ 63) (hs : 0 < s)
    (hsr : p - 1 = (s : Int) * 2 ^ r) :
    ∀ (n j fuel : Nat) (x : Int), j + n = r → n < fuel →
      ∃ m, squareLoop p fuel ((s : Int) * 2 ^ j) x = some m := by
  intro n
  induction n with
  | zero =>
    intro j fuel x hj hf
    obtain ⟨fuel, rfl⟩ : ∃ f, fuel = f + 1 := ⟨fuel - 1, by omega⟩
    have hjr : j = r := by omega
    subst hjr
    rw [squareLoop, if_neg (fun h => h.1 hsr.symm)]
    exact ⟨x, rfl⟩
  | succ n ih =>
    intro j fuel x hj hf
    obtain ⟨fuel, rfl⟩ : ∃ f, fuel = f + 1 := ⟨fuel - 1, by omega⟩
    have hdbl : (s : Int) * 2 ^ j * 2 = (s : Int) * 2 ^ (j + 1) := by
      rw [pow_succ]; ring
    have hle : (s : Int) * 2 ^ (j + 1) ≤ (s : Int) * 2 ^ r := by
      apply mul_le_mul_of_nonneg_left _ (by positivity)
      exact pow_le_pow_right₀ (by norm_num) (by omega)
    have hpos : (0 : Int) ≤ (s : Int) * 2 ^ (j + 1) := by positivity
    rw [squareLoop]
    by_cases hc : (s : Int) * 2 ^ j ≠ p - 1 ∧ x ≠ 1 ∧ x ≠ p - 1
    · rw [if_pos hc, hdbl, wrap64_of_range (by omega) (by omega)]
      exact ih (j + 1) fuel _ (by omega) (by omega)
    · rw [if_neg hc]
      exact ⟨x, rfl⟩

/-- The doublings of `temp` stay in the 64-bit range. -/
theorem temp_doubling_in_range (p : Int) (s r : Nat) (hp : p < 2 ^ 63)
    (hsr : p - 1 = (s : Int) * 2 ^ r) (j : Nat) (hj : j ≤ r) :
    wrap64 ((s : Int) * 2 ^ j) = (s : Int) * 2 ^ j ∧ (s : Int) * 2 ^ j ≤ p - 1 := by
  have hle : (s : Int) * 2 ^ j ≤ (s : Int) * 2 ^ r := by
    apply mul_le_mul_of_nonneg_left _ (by positivity)
    exact pow_le_pow_right₀ (by norm_num) hj
  have hpos : (0 : Int) ≤ (s : Int) * 2 ^ j := by positivity
  exact ⟨wrap64_of_range (by omega) (by omega), by omega⟩

/-- A round of `isPrimeMillerRabin` finishes, for every witness. -/
theorem millerRabinRound_terminates (p : Int) (s r : Nat) (hp : p < 2 ^ 63) (hs : 0 < s)
    (hr : r < loopFuel) (hsr : p - 1 = (s : Int) * 2 ^ r) (a : Int) :
    ∃ b, millerRabinRound p (s : Int) a = some b := by
  unfold millerRabinRound
  simp only
  split
  · exact ⟨true, rfl⟩
  · obtain ⟨m, hm⟩ := squareLoop_terminates p s r hp hs hsr r 0 loopFuel
      (modulo a (s : Int) p) (by omega) hr
    rw [pow_zero, mul_one] at hm
    rw [hm]
    exact ⟨_, rfl⟩

/-- The `for` loop of `isPrimeMillerRabin` finishes once every round does. -/
theorem millerRabinRounds_terminates (g : Nat → Int) (p s : Int)
    (hround : ∀ a, ∃ b, millerRabinRound p s a = some b) :
    ∀ (n k : Nat), ∃ b k2, millerRabinRounds g p s n k = some (b, k2) := by
  intro n
  induction n with
  | zero => exact fun k => ⟨true, k, rfl⟩
  | succ n ih =>
    intro k
    obtain ⟨b, hb⟩ := hround (Int.tmod (g k) (p - 1) + 1)
    rw [millerRabinRounds, hb]
    cases b with
    | false => exact ⟨false, k + 1, rfl⟩
    | true => exact ih (k + 1)

/-- For `2 ≤ p < 2^63` the halving loop stops with the odd part of `p - 1`. -/
theorem halveLoop_pred (p : Int) (hp2 : 2 ≤ p) (hp : p < 2 ^ 63) :
    ∃ s r : Nat, halveLoop loopFuel (p - 1) = some (s : Int) ∧ s % 2 = 1 ∧
      p - 1 = (s : Int) * 2 ^ r ∧ r < loopFuel := by
  have hlt : p - 1 < 2 ^ loopFuel := by
    have : (2 : Int) ^ loopFuel = 2 ^ 64 := rfl
    omega
  exact halveLoop_spec loopFuel (p - 1) (by omega) hlt

theorem isPrimeMillerRabin_terminates_aux (g : Nat → Int) (k : Nat) (p : Int)
    (hp : p < 2 ^ 63) : ∃ b k2, isPrimeMillerRabin g k p = some (b, k2) := by
  unfold isPrimeMillerRabin
  by_cases h1 : p < 2
  · rw [if_pos h1]
    exact ⟨false, k, rfl⟩
  rw [if_neg h1]
  by_cases h2 : p ≠ 2 ∧ Int.tmod p 2 = 0
  · rw [if_pos h2]
    exact ⟨false, k, rfl⟩
  rw [if_neg h2]
  obtain ⟨s, r, hs, hodd, hsr, hr⟩ := halveLoop_pred p (by omega) hp
  rw [hs]
  exact millerRabinRounds_terminates g p s
    (fun a => millerRabinRound_terminates p s r hp (by omega) hr hsr a) ACCURACY k

/-- C16: `isPrimeMillerRabin` terminates on every signed 64-bit `p` and every sequence of
values of `rand()`. For `p ≥ 2` the halving loop is entered with `s = p - 1 ≥ 1` and stops with
`s` odd, `s ≥ 1`, `p - 1 = s * 2 ^ r`; the squaring loop then runs at most `r` iterations
(fuel `r + 1`, one unit per test of the loop condition) for every value of `mod`, the
doublings of `temp` staying in the 64-bit range and reaching `p - 1` exactly. -/
theorem isPrimeMillerRabin_terminates (g : Nat → Int) (k : Nat) (p : Int)
    (_hlo : -2 ^ 63 ≤ p) (hhi : p < 2 ^ 63) :
    (∃ b k2, isPrimeMillerRabin g k p = some (b, k2)) ∧
    (2 ≤ p → ∃ s r : Nat, 1 ≤ p - 1 ∧ halveLoop loopFuel (p - 1) = some (s : Int) ∧
      s % 2 = 1 ∧ 1 ≤ s ∧ p - 1 = (s : Int) * 2 ^ r ∧
      (∀ x : Int, ∃ m, squareLoop p (r + 1) (s : Int) x = some m) ∧
      (∀ j, j ≤ r → wrap64 ((s : Int) * 2 ^ j) = (s : Int) * 2 ^ j ∧
        (s : Int) * 2 ^ j ≤ p - 1)) := by
  refine ⟨isPrimeMillerRabin_terminates_aux g k p hhi, fun hp2 => ?_⟩
  obtain ⟨s, r, hs, hodd, hsr, _⟩ := halveLoop_pred p hp2 hhi
  refine ⟨s, r, by omega, hs, hodd, by omega, hsr, fun x => ?_,
    fun j hj => temp_doubling_in_range p s r hhi hsr j hj⟩
  have := squareLoop_terminates p s r hhi (by omega) hsr r 0 (r + 1) x (by omega) (by omega)
  rwa [pow_zero, mul_one] at this

/-- Witness for `isPrimeMillerRabin_terminates`: `p = 2^63 - 1`, `rand()` always `-7`. -/
theorem isPrimeMillerRabin_terminates_witness :
    -(2 : Int) ^ 63 ≤ 2 ^ 63 - 1 ∧ (2 : Int) ^ 63 - 1 < 2 ^ 63 ∧
    ∃ b k2, isPrimeMillerRabin (fun _ => -7) 0 (2 ^ 63 - 1) = some (b, k2) :=
  ⟨by decide, by decide,
    (isPrimeMillerRabin_terminates (fun _ => -7) 0 (2 ^ 63 - 1) (by decide) (by decide)).1⟩

/-! ## The round test against the reference formulation -/

theorem emod_pow_two_pow (p x : Int) (i : Nat) :
    (x % p) ^ (2 ^ i) % p = x ^ (2 ^ i) % p := by
  have h1 : (x % p) ^ (2 ^ i) ≡ x ^ (2 ^ i) [ZMOD p] := Int.ModEq.pow _ (Int.mod_modEq _ _)
  exact h1

/-- The squarings of the reference test succeed exactly when one of the first `n` iterated
squares of `x` is `p - 1` modulo `p`. -/
theorem referenceSquarings_iff (p : Int) : ∀ (n : Nat) (x : Int),
    referenceSquarings p n x = true ↔ ∃ j, 1 ≤ j ∧ j ≤ n ∧ x ^ (2 ^ j) % p = p - 1 := by
  intro n
  induction n with
  | zero =>
    intro x
    simp only [referenceSquarings, Bool.false_eq_true, false_iff]
    rintro ⟨j, h1, h2, _⟩
    omega
  | succ n ih =>
    intro x
    have hstep : ∀ j : Nat, (x * x % p) ^ (2 ^ j) % p = x ^ (2 ^ (j + 1)) % p := by
      intro j
      rw [emod_pow_two_pow, ← pow_two, ← pow_mul, pow_succ']
    rw [referenceSquarings]
    by_cases h : x * x % p = p - 1
    · rw [if_pos h]
      simp only [true_iff]
      exact ⟨1, le_refl 1, by omega, by rw [pow_one, pow_two]; exact h⟩
    · rw [if_neg h, ih]
      constructor
      · rintro ⟨j, h1, h2, h3⟩
        exact ⟨j + 1, by omega, by omega, by rw [← hstep]; exact h3⟩
      · rintro ⟨j, h1, h2, h3⟩
        obtain ⟨j, rfl⟩ : ∃ j2, j = j2 + 1 := ⟨j - 1, by omega⟩
        rcases Nat.eq_zero_or_pos j with rfl | hj
        · rw [zero_add, pow_one, pow_two] at h3
          exact absurd h3 h
        · exact ⟨j, hj, by omega, by rw [hstep]; exact h3⟩

/-- For an odd `p ≥ 3` with `p - 1 = s * 2 ^ r`, `s` odd, the last squaring of the code's
loop cannot produce `p - 1`. -/
theorem top_power_ne_pred (p : Int) (s r : Nat) (hp3 : 3 ≤ p) (hodd : p % 2 = 1)
    (hs : s % 2 = 1) (hsr : p - 1 = (s : Int) * 2 ^ r) (a : Int) :
    a ^ (s * 2 ^ r) % p ≠ p - 1 := by
  have hpN : ((p.toNat : Nat) : Int) = p := Int.toNat_of_nonneg (by omega)
  have hsrN : p.toNat - 1 = s * 2 ^ r := by
    have h3 : ((p.toNat - 1 : Nat) : Int) = ((s * 2 ^ r : Nat) : Int) := by
      push_cast
      rw [← hsr]
      omega
    exact_mod_cast h3
  intro h
  rw [← hpN, emod_eq_pred_iff p.toNat (by omega), Int.cast_pow] at h
  exact pow_pred_ne_neg_one p.toNat s r (by omega) (by omega) hs hsrN _ h

theorem exponent_lt_loopFuel (p : Int) (s r : Nat) (hp2 : p ≤ 2 ^ 62) (hs : 0 < s)
    (hsr : p - 1 = (s : Int) * 2 ^ r) : r < loopFuel := by
  by_contra hge
  have h64 : 64 ≤ r := by
    have : loopFuel = 64 := rfl
    omega
  have h1 : (2 : Int) ^ 64 ≤ 2 ^ r := pow_le_pow_right₀ (by norm_num) h64
  have h2 : (2 : Int) ^ r ≤ (s : Int) * 2 ^ r := by
    have hs1 : (1 : Int) ≤ (s : Int) := by exact_mod_cast hs
    nlinarith [pow_pos (show (0 : Int) < 2 by norm_num) r]
  omega

/-- The decomposition of a positive number into an odd part and a power of two is unique. -/
theorem odd_part_unique : ∀ (r r2 s s2 : Nat), s % 2 = 1 → s2 % 2 = 1 →
    s * 2 ^ r = s2 * 2 ^ r2 → s = s2 ∧ r = r2 := by
  intro r
  induction r with
  | zero =>
    intro r2 s s2 hs hs2 h
    rcases Nat.eq_zero_or_pos r2 with rfl | hpos
    · simpa using h
    · obtain ⟨t, rfl⟩ : ∃ t, r2 = t + 1 := ⟨r2 - 1, by omega⟩
      rw [pow_zero, mul_one, pow_succ] at h
      have h2 : 2 ∣ s := ⟨s2 * 2 ^ t, by rw [h]; ring⟩
      omega
  | succ r ih =>
    intro r2 s s2 hs hs2 h
    rcases Nat.eq_zero_or_pos r2 with rfl | hpos
    · rw [pow_zero, mul_one, pow_succ] at h
      have h2 : 2 ∣ s2 := ⟨s * 2 ^ r, by rw [← h]; ring⟩
      omega
    · obtain ⟨t, rfl⟩ : ∃ t, r2 = t + 1 := ⟨r2 - 1, by omega⟩
      rw [pow_succ, pow_succ, ← mul_assoc, ← mul_assoc] at h
      obtain ⟨h1, h2⟩ := ih t s s2 hs hs2 (Nat.eq_of_mul_eq_mul_right (by norm_num) h)
      exact ⟨h1, by omega⟩

/-- The round of the code and the reference round give the same verdict. -/
theorem millerRabinRound_eq_reference_aux (p : Int) (s r : Nat) (hp3 : 3 ≤ p)
    (hp2 : p ≤ 2 ^ 62) (hodd : p % 2 = 1) (hs : s % 2 = 1) (hsr : p - 1 = (s : Int) * 2 ^ r)
    (a : Int) (ha : 0 ≤ a) :
    millerRabinRound p (s : Int) a = some (referenceRound p s r a) ∧
    (referenceRound p s r a = true ↔
      (a ^ s % p = 1 ∨ a ^ s % p = p - 1 ∨
        ∃ j, 1 ≤ j ∧ j ≤ r - 1 ∧ a ^ (s * 2 ^ j) % p = p - 1)) := by
  have hspos : 0 < s := by omega
  have hr := exponent_lt_loopFuel p s r hp2 hspos hsr
  have htop := top_power_ne_pred p s r hp3 hodd hs hsr a
  have hpow : ∀ i : Nat, (a ^ s % p) ^ (2 ^ i) % p = a ^ (s * 2 ^ i) % p := by
    intro i
    rw [emod_pow_two_pow, ← pow_mul]
  -- the reference round in closed form
  have href : referenceRound p s r a = true ↔
      (a ^ s % p = 1 ∨ a ^ s % p = p - 1 ∨
        ∃ j, 1 ≤ j ∧ j ≤ r - 1 ∧ a ^ (s * 2 ^ j) % p = p - 1) := by
    unfold referenceRound
    by_cases h : a ^ s % p = 1 ∨ a ^ s % p = p - 1
    · rw [if_pos h]
      simp only [true_iff]
      rcases h with h | h
      · exact Or.inl h
      · exact Or.inr (Or.inl h)
    · rw [if_neg h, referenceSquarings_iff]
      constructor
      · rintro ⟨j, h1, h2, h3⟩
        exact Or.inr (Or.inr ⟨j, h1, h2, by rw [← hpow]; exact h3⟩)
      · rintro (h1 | h1 | ⟨j, h1, h2, h3⟩)
        · exact absurd (Or.inl h1) h
        · exact absurd (Or.inr h1) h
        · exact ⟨j, h1, h2, by rw [hpow]; exact h3⟩
  -- the round of the code in closed form
  have hcode : roundPasses p s r a ↔
      (a ^ s % p = 1 ∨ a ^ s % p = p - 1 ∨
        ∃ j, 1 ≤ j ∧ j ≤ r - 1 ∧ a ^ (s * 2 ^ j) % p = p - 1) := by
    unfold roundPasses
    constructor
    · rintro (h | ⟨i, hi, h⟩)
      · exact Or.inl h
      · rcases Nat.eq_zero_or_pos i with rfl | hipos
        · rw [pow_zero, mul_one] at h
          exact Or.inr (Or.inl h)
        · have hne : i ≠ r := fun e => htop (e ▸ h)
          exact Or.inr (Or.inr ⟨i, hipos, by omega, h⟩)
    · rintro (h | h | ⟨j, _, h2, h3⟩)
      · exact Or.inl h
      · exact Or.inr ⟨0, Nat.zero_le _, by rw [pow_zero, mul_one]; exact h⟩
      · exact Or.inr ⟨j, by omega, h3⟩
  obtain ⟨b, hb, hiff⟩ := millerRabinRound_spec p s r hp3 hp2 hspos hr hsr a ha
  refine ⟨?_, href⟩
  rw [hb]
  congr 1
  rw [Bool.eq_iff_iff, hiff, hcode, href]

/-- C12: the round test of `isPrimeMillerRabin` agrees with the reference
strong-probable-prime test that tracks `r` explicitly. For every odd `p` with
`3 ≤ p ≤ 2^62`, `p - 1 = s * 2 ^ r` with `s` odd, and every witness `a` in `[1, p - 1]`, the
round of the code returns the verdict of the reference round, which passes if and only if
`a ^ s mod p` is `1` or `p - 1`, or `a ^ (s * 2 ^ j) mod p` is `p - 1` for some
`1 ≤ j ≤ r - 1`; the extra squaring of the code, to the exponent `s * 2 ^ r = p - 1`, never
yields `p - 1`. -/
theorem millerRabinRound_eq_reference (p : Int) (s r : Nat) (hp3 : 3 ≤ p) (hp2 : p ≤ 2 ^ 62)
    (hodd : p % 2 = 1) (hs : s % 2 = 1) (hsr : p - 1 = (s : Int) * 2 ^ r)
    (a : Int) (ha1 : 1 ≤ a) (_ha2 : a ≤ p - 1) :
    millerRabinRound p (s : Int) a = some (referenceRound p s r a) ∧
    (referenceRound p s r a = true ↔
      (a ^ s % p = 1 ∨ a ^ s % p = p - 1 ∨
        ∃ j, 1 ≤ j ∧ j ≤ r - 1 ∧ a ^ (s * 2 ^ j) % p = p - 1)) ∧
    a ^ (s * 2 ^ r) % p ≠ p - 1 ∧
    halveLoop loopFuel (p - 1) = some (s : Int) := by
  obtain ⟨h1, h2⟩ := millerRabinRound_eq_reference_aux p s r hp3 hp2 hodd hs hsr a (by omega)
  refine ⟨h1, h2, top_power_ne_pred p s r hp3 hodd hs hsr a, ?_⟩
  obtain ⟨s2, r2, hs2, hodd2, hsr2, _⟩ := halveLoop_pred p (by omega) (by omega)
  have heq : s * 2 ^ r = s2 * 2 ^ r2 := by
    have h3 : ((s * 2 ^ r : Nat) : Int) = ((s2 * 2 ^ r2 : Nat) : Int) := by
      push_cast
      rw [← hsr, ← hsr2]
    exact_mod_cast h3
  rw [hs2, (odd_part_unique r r2 s s2 hs hodd2 heq).1]

/-- Witness for `millerRabinRound_eq_reference`: `p = 13 = 1 + 3 * 2 ^ 2`, `a = 5`. -/
theorem millerRabinRound_eq_reference_witness :
    (3 : Int) ≤ 13 ∧ (13 : Int) ≤ 2 ^ 62 ∧ (13 : Int) % 2 = 1 ∧ 3 % 2 = 1 ∧
    (13 : Int) - 1 = ((3 : Nat) : Int) * 2 ^ 2 ∧ (1 : Int) ≤ 5 ∧ (5 : Int) ≤ 13 - 1 ∧
    millerRabinRound 13 ((3 : Nat) : Int) 5 = some (referenceRound 13 3 2 5) :=
  ⟨by decide, by decide, by decide, by decide, by decide, by decide, by decide,
    (millerRabinRound_eq_reference 13 3 2 (by decide) (by decide) (by decide) (by decide)
      (by decide) 5 (by decide) (by decide)).1⟩

/-! ## A composite is rejected by a non-trivial divisor -/

/-- A non-trivial divisor of `N` does not pass the round test modulo `N`. -/
theorem not_roundPasses_of_dvd (N : Nat) (hN : 3 ≤ N) (s r : Nat) (hs : 0 < s) (d : Nat)
    (hd1 : 1 < d) (hdvd : d ∣ N) : ¬ roundPasses (N : Int) s r (d : Int) := by
  rw [roundPasses_iff N hN, Int.cast_natCast]
  intro h
  have hunit : IsUnit ((d : Nat) : ZMod N) := by
    rcases h with h | ⟨i, _, h⟩
    · exact isUnit_of_pow_eq_pm (K := s) (by omega) (Or.inl h)
    · exact isUnit_of_pow_eq_pm (K := s * 2 ^ i) (by positivity) (Or.inr h)
  have hco := (ZMod.isUnit_iff_coprime d N).mp hunit
  have hgcd : Nat.gcd d N = d := Nat.gcd_eq_left hdvd
  rw [Nat.Coprime, hgcd] at hco
  omega

/-- When the first witness drawn is a non-trivial divisor of `p`, `isPrimeMillerRabin(p)`
returns false. -/
theorem isPrimeMillerRabin_of_divisor (p : Int) (hp4 : 4 ≤ p) (hp2 : p ≤ 2 ^ 62) (d : Int)
    (hd1 : 1 < d) (hd2 : d < p) (hdvd : d ∣ p) (g : Nat → Int) (k : Nat)
    (hfirst : Int.tmod (g k) (p - 1) + 1 = d) :
    ∃ k2, isPrimeMillerRabin g k p = some (false, k2) := by
  rcases Int.emod_two_eq_zero_or_one p with heven | hodd
  · exact ⟨k, isPrimeMillerRabin_small_or_even_aux g k p
      (Or.inr ⟨Int.dvd_of_emod_eq_zero heven, by omega⟩)⟩
  · obtain ⟨s, r, hs, hsr, hr, hhalve, _⟩ := isPrimeMillerRabin_spec p (by omega) hp2 hodd
    have hpN : ((p.toNat : Nat) : Int) = p := Int.toNat_of_nonneg (by omega)
    have hdN : ((d.toNat : Nat) : Int) = d := Int.toNat_of_nonneg (by omega)
    obtain ⟨b, hb, hiff⟩ := millerRabinRound_spec p s r (by omega) hp2 (by omega) hr hsr d
      (by omega)
    have hnot : ¬ roundPasses p s r d := by
      have hdvdN : d.toNat ∣ p.toNat := by
        rw [← hpN, ← hdN] at hdvd
        exact Int.natCast_dvd_natCast.mp hdvd
      have := not_roundPasses_of_dvd p.toNat (by omega) s r (by omega) d.toNat (by omega) hdvdN
      rwa [hpN, hdN] at this
    have hbf : b = false := by
      cases b with
      | false => rfl
      | true => exact absurd (hiff.mp rfl) hnot
    refine ⟨k + 1, ?_⟩
    have htm : Int.tmod p 2 = p % 2 := Int.tmod_eq_emod (by omega) (by omega)
    unfold isPrimeMillerRabin
    rw [if_neg (by omega), if_neg (fun h => by omega), hhalve]
    simp only []
    rw [show ACCURACY = 14 + 1 from rfl, millerRabinRounds, hfirst, hb, hbf]

/-- A composite `p ≥ 4` has a divisor `d` with `1 < d < p`. -/
theorem exists_nontrivial_divisor (p : Int) (hp4 : 4 ≤ p) (hcomp : ¬ Nat.Prime p.toNat) :
    ∃ d : Int, 1 < d ∧ d < p ∧ d ∣ p := by
  have hpN : ((p.toNat : Nat) : Int) = p := Int.toNat_of_nonneg (by omega)
  have hmin : p.toNat.minFac.Prime := Nat.minFac_prime (by omega)
  have hdvd : p.toNat.minFac ∣ p.toNat := Nat.minFac_dvd _
  have hle : p.toNat.minFac ≤ p.toNat := Nat.minFac_le (by omega)
  have hne : p.toNat.minFac ≠ p.toNat := fun h => hcomp (h ▸ hmin)
  have h2 := hmin.two_le
  refine ⟨(p.toNat.minFac : Int), by omega, by omega, ?_⟩
  rw [← hpN]
  exact Int.natCast_dvd_natCast.mpr hdvd

/-- C15: for every composite `p` with `4 ≤ p ≤ 2^62` there is a witness `a` in `[1, p - 1]`
such that `isPrimeMillerRabin(p)` returns false whenever `a` is the first witness drawn; every
non-trivial divisor of `p` is such a witness; so some sequence of non-negative values of
`rand()` makes `isPrimeMillerRabin(p)` return false. -/
theorem isPrimeMillerRabin_composite_rejected (p : Int) (hp4 : 4 ≤ p) (hp2 : p ≤ 2 ^ 62)
    (hcomp : ¬ Nat.Prime p.toNat) :
    (∃ a : Int, 1 ≤ a ∧ a ≤ p - 1 ∧ ∀ (g : Nat → Int) (k : Nat),
      Int.tmod (g k) (p - 1) + 1 = a → ∃ k2, isPrimeMillerRabin g k p = some (false, k2)) ∧
    (∀ d : Int, 1 < d → d < p → d ∣ p → ∀ (g : Nat → Int) (k : Nat),
      Int.tmod (g k) (p - 1) + 1 = d → ∃ k2, isPrimeMillerRabin g k p = some (false, k2)) ∧
    (∃ g : Nat → Int, (∀ i, 0 ≤ g i) ∧ ∃ k2, isPrimeMillerRabin g 0 p = some (false, k2)) := by
  obtain ⟨d, hd1, hd2, hdvd⟩ := exists_nontrivial_divisor p hp4 hcomp
  refine ⟨⟨d, by omega, by omega, fun g k h =>
      isPrimeMillerRabin_of_divisor p hp4 hp2 d hd1 hd2 hdvd g k h⟩,
    fun d2 h1 h2 h3 g k h => isPrimeMillerRabin_of_divisor p hp4 hp2 d2 h1 h2 h3 g k h,
    ⟨fun _ => d - 1, fun _ => show 0 ≤ d - 1 by omega, ?_⟩⟩
  apply isPrimeMillerRabin_of_divisor p hp4 hp2 d hd1 hd2 hdvd
  rw [Int.tmod_eq_emod (by omega) (by omega), Int.emod_eq_of_lt (by omega) (by omega)]
  ring

/-- Witness for `isPrimeMillerRabin_composite_rejected`: `p = 15`. -/
theorem isPrimeMillerRabin_composite_rejected_witness :
    (4 : Int) ≤ 15 ∧ (15 : Int) ≤ 2 ^ 62 ∧ ¬ Nat.Prime (15 : Int).toNat ∧
    ∃ g : Nat → Int, (∀ i, 0 ≤ g i) ∧ ∃ k2, isPrimeMillerRabin g 0 15 = some (false, k2) :=
  ⟨by decide, by decide, by rw [show Int.toNat 15 = 15 from rfl]; norm_num,
    (isPrimeMillerRabin_composite_rejected 15 (by decide) (by decide)
      (by rw [show Int.toNat 15 = 15 from rfl]; norm_num)).2.2⟩

/-! ## No division by zero -/

theorem checkedMod_of_ne_zero (a : Int) {b : Int} (hb : b ≠ 0) :
    checkedMod a b = Run.done (Int.tmod a b) := by
  rw [checkedMod, if_neg hb]

theorem checkedMod_zero (a : Int) : checkedMod a 0 = Run.divisionByZero := by
  rw [checkedMod, if_pos rfl]

/-- With a non-zero modulus the checked loop of `mulmod` runs as the unchecked one. -/
theorem mulmodLoopChecked_eq (m : Int) (hm : m ≠ 0) :
    ∀ (k : Nat) (x y b : Int), b.toNat = k →
      mulmodLoopChecked m x y b = Run.done (mulmodLoop m x y b) := by
  intro k
  induction k using Nat.strong_induction_on with
  | _ k ih =>
    intro x y b hk
    rw [mulmodLoopChecked, mulmodLoop]
    by_cases hb : b > 0
    · rw [if_pos hb, if_pos hb]
      have hdiv : Int.tdiv b 2 = b / 2 := Int.tdiv_eq_ediv (by omega) (by omega)
      rw [checkedMod_of_ne_zero _ hm, checkedMod_of_ne_zero _ hm]
      by_cases hodd : Int.tmod b 2 = 1
      · rw [if_pos hodd, if_pos hodd]
        exact ih (b / 2).toNat (by omega) _ _ _ (by rw [hdiv])
      · rw [if_neg hodd, if_neg hodd]
        exact ih (b / 2).toNat (by omega) _ _ _ (by rw [hdiv])
    · rw [if_neg hb, if_neg hb]

theorem mulmodChecked_eq (a b : Int) {m : Int} (hm : m ≠ 0) :
    mulmodChecked a b m = Run.done (mulmod a b m) := by
  unfold mulmodChecked mulmod
  rw [checkedMod_of_ne_zero _ hm]
  simp only [Run.bind]
  rw [mulmodLoopChecked_eq m hm _ _ _ b rfl]
  simp only [Run.bind]
  rw [checkedMod_of_ne_zero _ hm]

theorem mulmodChecked_zero (a b : Int) : mulmodChecked a b 0 = Run.divisionByZero := by
  unfold mulmodChecked
  rw [checkedMod_zero]
  rfl

/-- With a non-zero modulus the checked loop of `modulo` runs as the unchecked one. -/
theorem moduloLoopChecked_eq (m : Int) (hm : m ≠ 0) :
    ∀ (k : Nat) (x y e : Int), e.toNat = k →
      moduloLoopChecked m x y e = Run.done (moduloLoop m x y e) := by
  intro k
  induction k using Nat.strong_induction_on with
  | _ k ih =>
    intro x y e hk
    rw [moduloLoopChecked, moduloLoop]
    by_cases he : e > 0
    · rw [if_pos he, if_pos he]
      have hdiv : Int.tdiv e 2 = e / 2 := Int.tdiv_eq_ediv (by omega) (by omega)
      rw [mulmodChecked_eq _ _ hm, mulmodChecked_eq _ _ hm]
      by_cases hodd : Int.tmod e 2 = 1
      · rw [if_pos hodd, if_pos hodd]
        exact ih (e / 2).toNat (by omega) _ _ _ (by rw [hdiv])
      · rw [if_neg hodd, if_neg hodd]
        exact ih (e / 2).toNat (by omega) _ _ _ (by rw [hdiv])
    · rw [if_neg he, if_neg he]

theorem moduloChecked_eq (b e : Int) {m : Int} (hm : m ≠ 0) :
    moduloChecked b e m = Run.done (modulo b e m) := by
  unfold moduloChecked modulo
  rw [moduloLoopChecked_eq m hm _ _ _ e rfl]
  simp only [Run.bind]
  rw [checkedMod_of_ne_zero _ hm]

theorem moduloChecked_zero (b e : Int) : moduloChecked b e 0 = Run.divisionByZero := by
  unfold moduloChecked
  rw [moduloLoopChecked]
  by_cases he : e > 0
  · rw [if_pos he, mulmodChecked_zero, mulmodChecked_zero]
    split <;> rfl
  · rw [if_neg he]
    simp only [Run.bind]
    exact checkedMod_zero _

theorem squareLoopChecked_eq (p : Int) (hp : p ≠ 0) : ∀ (fuel : Nat) (temp m : Int),
    squareLoopChecked p fuel temp m = Run.ofOption (squareLoop p fuel temp m) := by
  intro fuel
  induction fuel with
  | zero => intro temp m; rfl
  | succ fuel ih =>
    intro temp m
    rw [squareLoopChecked, squareLoop]
    split
    · rw [mulmodChecked_eq _ _ hp]
      exact ih _ _
    · rfl

theorem millerRabinRoundChecked_eq (p s a : Int) (hp : p ≠ 0) :
    millerRabinRoundChecked p s a = Run.ofOption (millerRabinRound p s a) := by
  unfold millerRabinRoundChecked millerRabinRound
  rw [moduloChecked_eq _ _ hp]
  simp only [Run.bind]
  split
  · rfl
  · rw [squareLoopChecked_eq p hp]
    cases squareLoop p loopFuel s (modulo a s p) <;> rfl

theorem millerRabinRoundsChecked_eq (g : Nat → Int) (p s : Int) (hp : p ≠ 0)
    (hp1 : p - 1 ≠ 0) : ∀ (n k : Nat),
    millerRabinRoundsChecked g p s n k = Run.ofOption (millerRabinRounds g p s n k) := by
  intro n
  induction n with
  | zero => intro k; rfl
  | succ n ih =>
    intro k
    rw [millerRabinRoundsChecked, millerRabinRounds, checkedMod_of_ne_zero _ hp1]
    simp only [Run.bind]
    rw [millerRabinRoundChecked_eq p s _ hp]
    cases h : millerRabinRound p s (Int.tmod (g k) (p - 1) + 1) with
    | none => rfl
    | some b =>
      cases b with
      | false => rfl
      | true =>
        simp only [Run.ofOption, if_true]
        exact ih (k + 1)

/-- The checked `isPrimeMillerRabin` runs as the unchecked one, for every `p` and every
generator: no check fails. -/
theorem isPrimeMillerRabinChecked_eq (g : Nat → Int) (k : Nat) (p : Int) :
    isPrimeMillerRabinChecked g k p = Run.ofOption (isPrimeMillerRabin g k p) := by
  unfold isPrimeMillerRabinChecked isPrimeMillerRabin
  by_cases h1 : p < 2
  · rw [if_pos h1, if_pos h1]
    rfl
  rw [if_neg h1, if_neg h1]
  by_cases h2 : p ≠ 2 ∧ Int.tmod p 2 = 0
  · rw [if_pos h2, if_pos h2]
    rfl
  rw [if_neg h2, if_neg h2]
  cases halveLoop loopFuel (p - 1) with
  | none => rfl
  | some s => exact millerRabinRoundsChecked_eq g p s (by omega) (by omega) ACCURACY k

/-- C13: for every `p ≥ 2` and every non-negative value `v` of `rand()`, the witness
`v % (p - 1) + 1` lies in `[1, p - 1]` and the divisor `p - 1` is at least `1`. With every
`%` by `p - 1` and by the modulus checked, a run of `isPrimeMillerRabin` never ends in a
division by zero, for any `p` and any generator: it runs as the unchecked function, and it
reaches `mulmod` and `modulo` only with the modulus `p ≥ 2`, where their checks pass; called
with the modulus `0` they would fault. -/
theorem isPrimeMillerRabin_no_division_by_zero (g : Nat → Int) (k : Nat) (p : Int) :
    (2 ≤ p → 1 ≤ p - 1 ∧ ∀ v : Int, 0 ≤ v →
      1 ≤ Int.tmod v (p - 1) + 1 ∧ Int.tmod v (p - 1) + 1 ≤ p - 1) ∧
    isPrimeMillerRabinChecked g k p ≠ Run.divisionByZero ∧
    isPrimeMillerRabinChecked g k p = Run.ofOption (isPrimeMillerRabin g k p) ∧
    (2 ≤ p → ∀ a b : Int, mulmodChecked a b p = Run.done (mulmod a b p) ∧
      moduloChecked a b p = Run.done (modulo a b p)) ∧
    (∀ a b : Int, mulmodChecked a b 0 = Run.divisionByZero ∧
      moduloChecked a b 0 = Run.divisionByZero) := by
  refine ⟨fun hp => ⟨by omega, fun v hv => witness_range hp hv⟩, ?_,
    isPrimeMillerRabinChecked_eq g k p,
    fun hp a b => ⟨mulmodChecked_eq a b (by omega), moduloChecked_eq a b (by omega)⟩,
    fun a b => ⟨mulmodChecked_zero a b, moduloChecked_zero a b⟩⟩
  rw [isPrimeMillerRabinChecked_eq]
  cases isPrimeMillerRabin g k p <;> simp [Run.ofOption]

/-! ## The unsynchronised counter -/

/-- A worker that has left its loop stays where it is. -/
theorem workerSteps_finished (numbers : List Int) (threadId cores : Int) (c : Int) (e : Nat)
    (he : numbers[e]? = none) : ∀ n : Nat,
    workerSteps numbers threadId cores n (c, { element := e, loaded := none })
      = (c, { element := e, loaded := none }) := by
  intro n
  induction n with
  | zero => rfl
  | succ n ih =>
    rw [workerSteps]
    have : workerStep numbers threadId cores c { element := e, loaded := none }
        = (c, { element := e, loaded := none }) := by
      simp only [workerStep, he]
    rw [this]
    exact ih

/-- A worker stepping on its own from the index `pre.length` goes through the rest of the
list as the loop of `primesTrialDivision` does. -/
theorem workerSteps_alone (threadId cores : Int) : ∀ (todo pre : List Int) (c : Int) (n : Nat),
    2 * todo.length ≤ n →
      workerSteps (pre ++ todo) threadId cores n (c, { element := pre.length, loaded := none })
        = (primesTrialDivisionLoop threadId cores todo pre.length c,
            { element := (pre ++ todo).length, loaded := none }) := by
  intro todo
  induction todo with
  | nil =>
    intro pre c n _
    rw [List.append_nil, primesTrialDivisionLoop]
    exact workerSteps_finished pre threadId cores c pre.length (by simp) n
  | cons x t ih =>
    intro pre c n hn
    have hget : (pre ++ x :: t)[pre.length]? = some x := by
      rw [List.getElem?_append_right (le_refl _), Nat.sub_self]
      exact List.getElem?_cons_zero
    have happ : pre ++ x :: t = (pre ++ [x]) ++ t := by simp
    have hlen : (pre ++ [x]).length = pre.length + 1 := by simp
    rw [List.length_cons] at hn
    obtain ⟨n, rfl⟩ : ∃ n2, n = n2 + 2 := ⟨n - 2, by omega⟩
    rw [primesTrialDivisionLoop]
    by_cases hc : owns pre.length cores threadId = true ∧ isPrimeTrialDivision x = true
    · have h1 : workerStep (pre ++ x :: t) threadId cores c
          { element := pre.length, loaded := none }
          = (c, { element := pre.length, loaded := some c }) := by
        simp only [workerStep, hget, if_pos hc]
      have h2 : workerStep (pre ++ x :: t) threadId cores c
          { element := pre.length, loaded := some c }
          = (wrap32 (c + 1), { element := pre.length + 1, loaded := none }) := by
        simp only [workerStep]
      rw [workerSteps, h1, workerSteps, h2, if_pos hc.1, if_pos hc.2]
      have := ih (pre ++ [x]) (wrap32 (c + 1)) n (by omega)
      rw [hlen, ← happ] at this
      exact this
    · have h1 : workerStep (pre ++ x :: t) threadId cores c
          { element := pre.length, loaded := none }
          = (c, { element := pre.length + 1, loaded := none }) := by
        simp only [workerStep, hget, if_neg hc]
      have hval : (if owns pre.length cores threadId = true then
          (if isPrimeTrialDivision x = true then wrap32 (c + 1) else c) else c) = c := by
        by_cases ho : owns pre.length cores threadId = true
        · rw [if_pos ho, if_neg (fun hp => hc ⟨ho, hp⟩)]
        · rw [if_neg ho]
      rw [workerSteps, h1, hval]
      have := ih (pre ++ [x]) c (n + 1) (by omega)
      rw [hlen, ← happ] at this
      exact this

/-- A worker thread that runs without interference performs `primesTrialDivision`. -/
theorem workerSteps_eq_primesTrialDivision (numbers : List Int) (threadId cores : Int)
    (c : Int) :
    workerSteps numbers threadId cores (2 * numbers.length)
        (c, { element := 0, loaded := none })
      = (primesTrialDivision numbers threadId cores c,
          { element := numbers.length, loaded := none }) := by
  have := workerSteps_alone threadId cores numbers [] c (2 * numbers.length) (le_refl _)
  simpa [primesTrialDivision] using this

/-- C11 (failing input): the list `[2, 2]` with two workers. Under the interleaving in which
worker 0 reads `countTD`, worker 1 reads `countTD`, worker 0 writes and worker 1 writes, both
threads finish and `countTD` is `1`: an increment is lost. The single-worker run gives `2`, as
does the interleaving in which worker 0 finishes before worker 1 starts. -/
theorem countTD_lost_update :
    (runSchedule [2, 2] 2 [0, 1, 1, 0, 1, 0]).countTD = 1 ∧
    joined [2, 2] (runSchedule [2, 2] 2 [0, 1, 1, 0, 1, 0]) = true ∧
    runTrialDivision [2, 2] 1 0 = 2 ∧
    (runSchedule [2, 2] 1 [0, 0, 0, 0]).countTD = 2 ∧
    (runSchedule [2, 2] 2 [0, 0, 0, 1, 1, 1]).countTD = 2 ∧
    joined [2, 2] (runSchedule [2, 2] 2 [0, 0, 0, 1, 1, 1]) = true := by
  refine ⟨by decide, by decide, by decide, by decide, by decide, by decide⟩

end Primes
